import Mathlib

/-!
Verification development for the YOLACT post-processing pipeline
(`src/target_app/yolact/src/yolact.hpp`).

The C++ pipeline is embedded shallowly over `ℚ`:

* 32-bit float arithmetic is idealised as exact rational arithmetic;
* the transcendental `exp` (used by `decode_bbox` for box sizes and by
  `sigmoid` for mask synthesis) is passed in as an explicit function
  parameter `qexp : ℚ → ℚ`, so every theorem quantifies over it;
* the flat tensor buffers (`loc_data`, `conf_data`, `mask_data`,
  `proto_data`) are modelled as total functions `ℕ → ℚ`, matching the
  unchecked pointer arithmetic of the source;
* `std::map` caches (`decoded_bboxes`, `masks`) are modelled as
  association lists with insert-if-absent semantics (`emplace` never
  overwrites an existing key);
* `std::stable_sort` is modelled by a stable insertion sort
  (`sortDescBy`); the single `std::sort` call of the global top-K stage
  is modelled by the same stable sort, a determinisation of its
  unspecified tie order;
* the model sizes and thresholds (`NUM_PRIORS`, `NUM_CLASSES`,
  `PROTO_C`, `NMS_CONF_THRESH`, `NMS_THRESH`, `NMS_TOP_K`,
  `KEEP_TOP_K`) are gathered in a `Config` record; the source fixes
  them by `#define` to `19248`, `81`, `32`, `0.6`, `0.2`, `200`, `15`.
-/

namespace Yolact

/-- The `box_t` record of the source: a class label, a score and a
center/size (for priors) or corner/size (for results) geometry. -/
structure BoxT where
  label : ℕ
  score : ℚ
  x : ℚ
  y : ℚ
  w : ℚ
  h : ℚ
deriving Repr, DecidableEq

/-- The configuration constants of the source (`#define`s at the top
of `yolact.hpp`), gathered as parameters. -/
structure Config where
  numPriors : ℕ
  numClasses : ℕ
  protoC : ℕ
  confThresh : ℚ
  nmsThresh : ℚ
  topK : ℕ
  keepTopK : ℕ
deriving Repr, DecidableEq

/-- The per-image tensor buffers handed to `detect`, as flat arrays. -/
structure Inputs where
  loc : ℕ → ℚ
  conf : ℕ → ℚ
  maskData : ℕ → ℚ
  priors : ℕ → BoxT

/-! ### Prior box generation (`create_priors`) -/

/-- Feature-map side lengths of the five pyramid levels. -/
def fmapDims : List ℕ := [69, 35, 18, 9, 5]

/-- Per-level anchor scales. -/
def priorScales : List ℕ := [24, 48, 96, 192, 384]

/-- The fixed aspect-ratio list (identical for every level in the
source's `aspect_ratios` table). -/
def aspectRatios : List ℚ := [1, 1/2, 2]

/-- The prior box emitted for level `k`, row `j`, column `i`,
ratio slot `r` (the loop body of `create_priors`; `label`/`score` of
`box_t` are left zero, the source leaves them uninitialised and never
reads them for priors). -/
def priorAt (k j i r : ℕ) : BoxT :=
  let F : ℚ := (fmapDims.getD k 0 : ℕ)
  let scale : ℚ := (priorScales.getD k 0 : ℕ)
  let w : ℚ := scale * aspectRatios.getD r 0 / 550
  { label := 0, score := 0
    x := ((i : ℚ) + 1/2) * (1 / F)
    y := ((j : ℚ) + 1/2) * (1 / F)
    w := w, h := w }

/-- `create_priors`: the nested level/row/column/ratio loops of the
source, emitting priors by appending to an accumulator (the `*prior_data++`
pointer writes). -/
def create_priors : List BoxT :=
  (List.range 5).foldl (fun acc k =>
    (List.range (fmapDims.getD k 0)).foldl (fun acc j =>
      (List.range (fmapDims.getD k 0)).foldl (fun acc i =>
        (List.range 3).foldl (fun acc r => acc ++ [priorAt k j i r]) acc) acc) acc) []

/-- One pyramid level of the prior list, as the nested row/column/ratio
iteration (used to characterise `create_priors`). -/
def priorLevel (k : ℕ) : List BoxT :=
  (List.range (fmapDims.getD k 0)).flatMap (fun j =>
    (List.range (fmapDims.getD k 0)).flatMap (fun i =>
      (List.range 3).map (priorAt k j i)))

/-! ### Box decoding (`decode_bbox`) -/

/-- Clamp to `[0,1]`: the source's `std::max(std::min(v, 1.f), 0.f)`. -/
def clamp01 (v : ℚ) : ℚ := max (min v 1) 0

/-- `decode_bbox`: variance-scaled offset-to-box transform.  Reads the
four location offsets at `loc_data[idx*4..idx*4+3]`, produces the
decoded `[x-center, y-center, width, height]` vector that the source
stores into the `decoded_bboxes` cache. -/
def decode_bbox (qexp : ℚ → ℚ) (inp : Inputs) (idx : ℕ) : List ℚ :=
  let b0 := inp.loc (idx * 4)
  let b1 := inp.loc (idx * 4 + 1)
  let b2 := inp.loc (idx * 4 + 2)
  let b3 := inp.loc (idx * 4 + 3)
  let p := inp.priors idx
  let cx := p.x + b0 * (1/10) * p.w
  let cy := p.y + b1 * (1/10) * p.h
  let dw := p.w * qexp (b2 * (1/5))
  let dh := p.h * qexp (b3 * (1/5))
  let x0 := clamp01 (cx - dw / 2)
  let y0 := clamp01 (cy - dh / 2)
  let x1 := clamp01 (cx + dw / 2)
  let y1 := clamp01 (cy + dh / 2)
  let nx := (1/2) * (x0 + x1)
  let ny := (1/2) * (y0 + y1)
  [nx, ny, (x1 - nx) * 2, (y1 - ny) * 2]

/-- The mask-coefficient vector cached for a prior: the `PROTO_C`
values pushed from `mask_data[idx*PROTO_C+c]` in `apply_one_class_nms`. -/
def maskCoefs (cfg : Config) (inp : Inputs) (idx : ℕ) : List ℚ :=
  (List.range cfg.protoC).map (fun c => inp.maskData (idx * cfg.protoC + c))

/-! ### Stable sorting

`std::stable_sort` with comparator `lhs > rhs` on the key, modelled by
a stable insertion sort: an element is inserted before the first
existing element whose key is `≤` its own, so equal keys keep their
original relative order. -/

/-- Stable descending insertion of `x` by key. -/
def insertDescBy (key : α → ℚ) (x : α) : List α → List α
  | [] => [x]
  | y :: ys => if key y ≤ key x then x :: y :: ys else y :: insertDescBy key x ys

/-- Stable descending insertion sort by key. -/
def sortDescBy (key : α → ℚ) : List α → List α
  | [] => []
  | x :: xs => insertDescBy key x (sortDescBy key xs)

/-! ### Per-class ranking (`get_one_class_max_score_index`) -/

/-- `get_one_class_max_score_index`: scan all priors for one class,
retain `(score, prior-index)` pairs with score strictly above
`NMS_CONF_THRESH`, stable-sort descending by score, truncate to
`NMS_TOP_K`. -/
def get_one_class_max_score_index (cfg : Config) (conf : ℕ → ℚ) (label : ℕ) :
    List (ℚ × ℕ) :=
  let vec := (List.range cfg.numPriors).filterMap (fun i =>
    let s := conf (i * cfg.numClasses + label)
    if s > cfg.confThresh then some (s, i) else none)
  (sortDescBy (fun p => p.1) vec).take cfg.topK

/-! ### IoU and greedy NMS

`applyNMS` comes from `<vitis/ai/nnpp/apply_nms.hpp>`, an external
library header that is not part of this repository; it and its IoU
helper are modelled from the spec (§4.4, §7, §9, glossary). -/

/-- Overlap length of two intervals, clamped at zero. -/
def interLen (a0 a1 b0 b1 : ℚ) : ℚ := max 0 (min a1 b1 - max a0 b0)

/-- Modelled from the spec: the intersection-over-union of two decoded
`[x-center, y-center, width, height]` boxes — ratio of overlap area to
union area, with IoU against a degenerate (non-positive-area union)
pair defined as 0, never a division fault. -/
def boxIoU (a b : List ℚ) : ℚ :=
  let ax0 := a.getD 0 0 - a.getD 2 0 / 2
  let ax1 := a.getD 0 0 + a.getD 2 0 / 2
  let ay0 := a.getD 1 0 - a.getD 3 0 / 2
  let ay1 := a.getD 1 0 + a.getD 3 0 / 2
  let bx0 := b.getD 0 0 - b.getD 2 0 / 2
  let bx1 := b.getD 0 0 + b.getD 2 0 / 2
  let by0 := b.getD 1 0 - b.getD 3 0 / 2
  let by1 := b.getD 1 0 + b.getD 3 0 / 2
  let inter := interLen ax0 ax1 bx0 bx1 * interLen ay0 ay1 by0 by1
  let uni := a.getD 2 0 * a.getD 3 0 + b.getD 2 0 * b.getD 3 0 - inter
  if uni ≤ 0 then 0 else inter / uni

/-- Modelled from the spec: the greedy suppression loop of the external
`applyNMS` over candidate positions in descending-score order — a
candidate whose score is below the confidence floor is discarded; an
accepted candidate suppresses every remaining candidate whose box IoU
with it is above the suppression threshold (§4.4 with §9's
clarification that the confidence floor is not part of the IoU
criterion).  The loop runs at most once per candidate; the recursion
is paid for by an explicit fuel argument equal to the list length
(`nmsLoop` below), so the function reduces by kernel computation. -/
def nmsLoopFuel (score : ℕ → ℚ) (box : ℕ → List ℚ) (nms conf : ℚ) :
    ℕ → List ℕ → List ℕ
  | _, [] => []
  | 0, _ :: _ => []
  | fuel + 1, i :: rest =>
    if score i < conf then nmsLoopFuel score box nms conf fuel rest
    else i :: nmsLoopFuel score box nms conf fuel
        (rest.filter (fun j => boxIoU (box j) (box i) ≤ nms))

def nmsLoop (score : ℕ → ℚ) (box : ℕ → List ℚ) (nms conf : ℚ)
    (l : List ℕ) : List ℕ :=
  nmsLoopFuel score box nms conf l.length l

/-- Modelled from the spec: `applyNMS(boxes, scores, nms, conf, results)`
from the external `<vitis/ai/nnpp/apply_nms.hpp>` — stable-sorts the
candidate positions by descending score and runs the greedy
suppression loop, returning accepted positions in acceptance order. -/
def applyNMS (boxes : List (List ℚ)) (scores : List ℚ) (nms conf : ℚ) :
    List ℕ :=
  let order := sortDescBy (fun i => scores.getD i 0) (List.range scores.length)
  nmsLoop (fun i => scores.getD i 0) (fun i => boxes.getD i []) nms conf order

/-! ### The per-image caches (`decoded_bboxes` / `masks` members) -/

/-- The two per-image `std::map<int, std::vector<float>>` caches. -/
structure DState where
  decoded : List (ℕ × List ℚ)
  masks : List (ℕ × List ℚ)
deriving Repr, DecidableEq

/-- The cleared caches at the start of `detect`. -/
def emptyState : DState := ⟨[], []⟩

/-- The cache-miss branch of the `apply_one_class_nms` loop: if `idx`
has no decoded box yet and is in range, decode it and cache both the
box and the mask-coefficient vector (`emplace` never overwrites). -/
def decodeAndCache (qexp : ℚ → ℚ) (cfg : Config) (inp : Inputs)
    (st : DState) (idx : ℕ) : DState :=
  if (st.decoded.lookup idx).isNone then
    if idx < cfg.numPriors then
      { decoded := (idx, decode_bbox qexp inp idx) :: st.decoded
        masks := (idx, maskCoefs cfg inp idx) :: st.masks }
    else st
  else st

/-- The cache-filling pass of `apply_one_class_nms` over a candidate
list (the `while` loop's cache updates, separated from the box
gathering). -/
def foldCache (qexp : ℚ → ℚ) (cfg : Config) (inp : Inputs) (st : DState)
    (vec : List (ℚ × ℕ)) : DState :=
  vec.foldl (fun s p => decodeAndCache qexp cfg inp s p.2) st

/-- `apply_one_class_nms`: walk the ranked candidate list caching
decoded boxes and mask coefficients, gather the box/score arrays in
candidate order, run `applyNMS`, and map accepted positions back to
prior indices through `resultmap`. -/
def apply_one_class_nms (qexp : ℚ → ℚ) (cfg : Config) (inp : Inputs)
    (st : DState) (vec : List (ℚ × ℕ)) : DState × List ℕ :=
  let st' := foldCache qexp cfg inp st vec
  let boxes := vec.map (fun p => ((st'.decoded.lookup p.2).getD []))
  let scores := vec.map (fun p => p.1)
  let results := applyNMS boxes scores cfg.nmsThresh cfg.confThresh
  (st', results.map (fun r => (vec.map (fun p => p.2)).getD r 0))

/-- The class labels `detect` iterates over: `1 .. numClasses-1`. -/
def classList (cfg : Config) : List ℕ := (List.range cfg.numClasses).drop 1

/-- The per-class loop of `detect`: run ranking + NMS for each class
label in order, threading the caches, collecting each class's
surviving prior indices. -/
def runClasses (qexp : ℚ → ℚ) (cfg : Config) (inp : Inputs) :
    List ℕ → DState → DState × List (List ℕ)
  | [], st => (st, [])
  | c :: cs, st =>
    let r1 := apply_one_class_nms qexp cfg inp st
      (get_one_class_max_score_index cfg inp.conf c)
    let r2 := runClasses qexp cfg inp cs r1.1
    (r2.1, r1.2 :: r2.2)

/-- The result record built for one surviving `(label, prior-index)`
pair in `detect`'s final emission loop: score re-read from the
confidence tensor, geometry converted from the cached center/size box
to top-left/size. -/
def emitBox (st : DState) (cfg : Config) (inp : Inputs) (p : ℕ × ℕ) : BoxT :=
  let bbox := (st.decoded.lookup p.2).getD []
  { label := p.1
    score := inp.conf (p.2 * cfg.numClasses + p.1)
    x := bbox.getD 0 0 - (1/2) * bbox.getD 2 0
    y := bbox.getD 1 0 - (1/2) * bbox.getD 3 0
    w := bbox.getD 2 0
    h := bbox.getD 3 0 }

/-- `detect`: clear the caches, run ranking + per-class NMS for labels
`1 .. numClasses-1`, apply the global top-K cap when the survivor
count exceeds `KEEP_TOP_K`, then emit the result boxes and their mask
coefficient vectors in class-major order. -/
def detect (qexp : ℚ → ℚ) (cfg : Config) (inp : Inputs) :
    List BoxT × List (List ℚ) :=
  let classes := classList cfg
  let r := runClasses qexp cfg inp classes emptyState
  let st := r.1
  let labeled := classes.zip r.2
  let numDet := (r.2.map List.length).sum
  let finalPairs : List (ℕ × ℕ) :=
    if 0 < cfg.keepTopK ∧ cfg.keepTopK < numDet then
      let tuples := labeled.flatMap (fun ci =>
        ci.2.map (fun i => (inp.conf (i * cfg.numClasses + ci.1), ci.1, i)))
      let kept := (sortDescBy (fun t => t.1) tuples).take cfg.keepTopK
      classes.flatMap (fun c =>
        (kept.filter (fun t => t.2.1 == c)).map (fun t => (c, t.2.2)))
    else
      labeled.flatMap (fun ci => ci.2.map (fun i => (ci.1, i)))
  (finalPairs.map (fun p => emitBox st cfg inp p),
   finalPairs.map (fun p => ((st.masks.lookup p.2).getD [])))

/-! ### Mask synthesis (`draw_masks`, lines 424–436) -/

/-- The logistic function of the source, `1/(1+exp(-x))`, over the
supplied `qexp`. -/
def sigmoid (qexp : ℚ → ℚ) (x : ℚ) : ℚ := 1 / (1 + qexp (-x))

/-- The coefficient·prototype dot product at spatial location `(h,w)`:
`Σ_c proto[h*HW*C + w*C + c] * mask[c]`. -/
def maskDot (cfg : Config) (protoHW : ℕ) (proto : ℕ → ℚ)
    (mask : List ℚ) (h w : ℕ) : ℚ :=
  ((List.range cfg.protoC).map (fun c =>
    proto (h * protoHW * cfg.protoC + w * cfg.protoC + c) * mask.getD c 0)).sum

/-- The synthesized mask probability field of `draw_masks`:
`m1(h,w) = sigmoid(Σ_c proto[h,w,c] * mask[c])`. -/
def synthMask (qexp : ℚ → ℚ) (cfg : Config) (protoHW : ℕ) (proto : ℕ → ℚ)
    (mask : List ℚ) (h w : ℕ) : ℚ :=
  sigmoid qexp (maskDot cfg protoHW proto mask h w)

/-! ### A pure (state-free) description of the pipeline

The caches of `DState` only ever hold `decode_bbox`/`maskCoefs` values,
so `detect` is equal to the following cache-free pipeline; the
characterisation is proved below (`detect_eq_pure`). -/

/-- The greedy suppression loop with the (never-firing, §9) confidence
floor removed: accept the head, suppress the rest by IoU, recurse. -/
def nmsPureFuel (box : ℕ → List ℚ) (nms : ℚ) : ℕ → List ℕ → List ℕ
  | _, [] => []
  | 0, _ :: _ => []
  | fuel + 1, i :: rest =>
    i :: nmsPureFuel box nms fuel
      (rest.filter (fun j => boxIoU (box j) (box i) ≤ nms))

def nmsPure (box : ℕ → List ℚ) (nms : ℚ) (l : List ℕ) : List ℕ :=
  nmsPureFuel box nms l.length l

/-- The surviving prior indices of one class, computed without the
cache: NMS over the ranked candidates' decoded boxes. -/
def nmsSurvivors (qexp : ℚ → ℚ) (cfg : Config) (inp : Inputs) (c : ℕ) :
    List ℕ :=
  let vec := get_one_class_max_score_index cfg inp.conf c
  (applyNMS (vec.map (fun p => decode_bbox qexp inp p.2))
      (vec.map (fun p => p.1)) cfg.nmsThresh cfg.confThresh).map
    (fun r => (vec.map (fun p => p.2)).getD r 0)

/-- All per-class NMS survivors as `(label, prior-index)` pairs, in
class-major order (the pre-cap detection set). -/
def survivorPairs (qexp : ℚ → ℚ) (cfg : Config) (inp : Inputs) :
    List (ℕ × ℕ) :=
  (classList cfg).flatMap (fun c =>
    (nmsSurvivors qexp cfg inp c).map (fun i => (c, i)))

/-- The `(score, label, index)` triple built for the global top-K
stage from a `(label, index)` pair. -/
def tupleOf (cfg : Config) (inp : Inputs) (p : ℕ × ℕ) : ℚ × ℕ × ℕ :=
  (inp.conf (p.2 * cfg.numClasses + p.1), p.1, p.2)

/-- The final `(label, prior-index)` pairs `detect` emits: the
survivor pairs, truncated to the best `KEEP_TOP_K` by score and
re-bucketed by class when the survivor count exceeds the cap. -/
def detectPairs (qexp : ℚ → ℚ) (cfg : Config) (inp : Inputs) :
    List (ℕ × ℕ) :=
  let sp := survivorPairs qexp cfg inp
  if 0 < cfg.keepTopK ∧ cfg.keepTopK < sp.length then
    let kept := (sortDescBy (fun t => t.1) (sp.map (tupleOf cfg inp))).take
      cfg.keepTopK
    (classList cfg).flatMap (fun c =>
      (kept.filter (fun t => t.2.1 == c)).map (fun t => (c, t.2.2)))
  else sp

/-- The result record of one emitted pair, cache-free. -/
def emitPure (qexp : ℚ → ℚ) (cfg : Config) (inp : Inputs) (p : ℕ × ℕ) :
    BoxT :=
  let bbox := decode_bbox qexp inp p.2
  { label := p.1
    score := inp.conf (p.2 * cfg.numClasses + p.1)
    x := bbox.getD 0 0 - (1/2) * bbox.getD 2 0
    y := bbox.getD 1 0 - (1/2) * bbox.getD 3 0
    w := bbox.getD 2 0
    h := bbox.getD 3 0 }

/-- The cache invariant: every cached box/coefficient vector is the
pure decode of its index, and a decoded entry always has its paired
mask entry. -/
def CacheOK (qexp : ℚ → ℚ) (cfg : Config) (inp : Inputs) (st : DState) :
    Prop :=
  (∀ i b, st.decoded.lookup i = some b → b = decode_bbox qexp inp i) ∧
  (∀ i m, st.masks.lookup i = some m → m = maskCoefs cfg inp i) ∧
  (∀ i, (st.decoded.lookup i).isSome → (st.masks.lookup i).isSome)

/-! ### Prior index bookkeeping -/

/-- Start index of pyramid level `k` in the prior list: three priors
per grid cell of every earlier level. -/
def levelOffset (k : ℕ) : ℕ :=
  3 * (((fmapDims.take k).map (fun F => F * F)).sum)

/-! ### `postprocess` (tensor dispatch by name; no shape validation) -/

/-- A named output tensor handed to `postprocess`: its name, its shape
(first entry the batch dimension, last the channel count) and its flat
per-batch data. -/
structure NamedTensor where
  name : String
  shape : List ℕ
  data : ℕ → ℚ

/-- The `tensor_offset` member table: start prior index of each of the
five prediction heads. -/
def tensorOffset : List ℕ := [0, 14283, 17958, 18930, 19173]

/-- The five location-head tensor names matched in `postprocess`. -/
def locNames : List String :=
  ["Yolact__Yolact_PredictionModule_prediction_layers__ModuleList_0__13127_fix_",
   "Yolact__Yolact_PredictionModule_prediction_layers__ModuleList_1__13263_fix_",
   "Yolact__Yolact_PredictionModule_prediction_layers__ModuleList_2__13399_fix_",
   "Yolact__Yolact_PredictionModule_prediction_layers__ModuleList_3__13535_fix_",
   "Yolact__Yolact_PredictionModule_prediction_layers__ModuleList_4__13671_fix_"]

/-- The five confidence-head tensor names matched in `postprocess`. -/
def confNames : List String :=
  ["Yolact__Yolact_13749", "Yolact__Yolact_13752", "Yolact__Yolact_13755",
   "Yolact__Yolact_13758", "Yolact__Yolact_13761"]

/-- The five mask-head tensor names matched in `postprocess`. -/
def maskNames : List String :=
  ["Yolact__Yolact_PredictionModule_prediction_layers__ModuleList_0__13198",
   "Yolact__Yolact_PredictionModule_prediction_layers__ModuleList_1__13334",
   "Yolact__Yolact_PredictionModule_prediction_layers__ModuleList_2__13470",
   "Yolact__Yolact_PredictionModule_prediction_layers__ModuleList_3__13606",
   "Yolact__Yolact_PredictionModule_prediction_layers__ModuleList_4__13742"]

/-- The prototype tensor name matched in `postprocess`. -/
def protoName : String := "Yolact__Yolact_13058_fix_"

/-- The persistent host buffers the tensors are copied into
(`loc_data`, `conf_data`, `mask_data`, `proto_data` members; their
initial contents are whatever the previous call or `malloc` left). -/
structure Buffers where
  loc : ℕ → ℚ
  conf : ℕ → ℚ
  maskData : ℕ → ℚ
  proto : ℕ → ℚ

/-- `copy_data`: for each batch slice, copy `elements` values of the
source into the destination starting at `tensor_offset[idx]*channels`,
advancing the destination by `NUM_PRIORS*channels` per slice. -/
def copy_data (cfg : Config) (src dst : ℕ → ℚ)
    (idx batch elements channels : ℕ) : ℕ → ℚ :=
  (List.range batch).foldl (fun d i =>
    let off := tensorOffset.getD idx 0 * channels + i * (cfg.numPriors * channels)
    fun n => if off ≤ n ∧ n < off + elements then src (i * elements + (n - off)) else d n)
    dst

/-- One iteration of the `postprocess` tensor loop: dispatch on the
tensor's name and copy its data into the matching host buffer; an
unknown name is ignored.  No shape check of any kind is performed. -/
def processTensor (cfg : Config) (bufs : Buffers) (t : NamedTensor) :
    Buffers :=
  let batch := t.shape.headD 1
  let elements := (t.shape.foldl (· * ·) 1) / max batch 1
  let channels := (t.shape.getLast?).getD 0
  if t.name = protoName then
    { bufs with proto := fun n => if n < elements then t.data n else bufs.proto n }
  else
    match locNames.findIdx? (fun s => s == t.name) with
    | some k => { bufs with loc := copy_data cfg t.data bufs.loc k batch elements channels }
    | none =>
      match confNames.findIdx? (fun s => s == t.name) with
      | some k => { bufs with conf := copy_data cfg t.data bufs.conf k batch elements channels }
      | none =>
        match maskNames.findIdx? (fun s => s == t.name) with
        | some k => { bufs with maskData := copy_data cfg t.data bufs.maskData k batch elements channels }
        | none => bufs

/-- `postprocess`: copy every recognised tensor into the host buffers,
then clear the result vectors and run `detect` on whatever was copied.
The source surfaces no error from this function; the `Except` result
type records that fact (the error constructor is never produced). -/
def postprocess (cfg : Config) (qexp : ℚ → ℚ) (bufs : Buffers)
    (priors : ℕ → BoxT) (tensors : List NamedTensor) :
    Except String (List BoxT × List (List ℚ)) :=
  let bufs' := tensors.foldl (processTensor cfg) bufs
  .ok (detect qexp cfg
    { loc := bufs'.loc, conf := bufs'.conf, maskData := bufs'.maskData
      priors := priors })

/-- Per-head prior-slice length implied by the offset table (the last
head extends to `numPriors`). -/
def sliceLen (cfg : Config) (k : ℕ) : ℕ :=
  tensorOffset.getD (k + 1) cfg.numPriors - tensorOffset.getD k 0

/-- The per-batch element count a recognised tensor must have to be
consistent with the configured `numPriors`/`numClasses`/`protoC`
(`none` for unrecognised names). -/
def expectedElements (cfg : Config) (protoHW : ℕ) (name : String) :
    Option ℕ :=
  if name = protoName then some (protoHW * protoHW * cfg.protoC)
  else
    match locNames.findIdx? (fun s => s == name) with
    | some k => some (sliceLen cfg k * 4)
    | none =>
      match confNames.findIdx? (fun s => s == name) with
      | some k => some (sliceLen cfg k * cfg.numClasses)
      | none =>
        match maskNames.findIdx? (fun s => s == name) with
        | some k => some (sliceLen cfg k * cfg.protoC)
        | none => none

/-- A tensor's dimensions are consistent with the configuration if its
per-batch element count matches the expectation for its name. -/
def wellShaped (cfg : Config) (protoHW : ℕ) (t : NamedTensor) : Prop :=
  ∀ n, expectedElements cfg protoHW t.name = some n →
    (t.shape.foldl (· * ·) 1) / max (t.shape.headD 1) 1 = n

/-! ### Concrete fixtures (used by the witness theorems) -/

/-- A small configuration: 2 priors, 5 classes, 1 mask coefficient,
reference thresholds. -/
def tcfg : Config := ⟨2, 5, 1, 3/5, 1/5, 200, 15⟩

/-- A small input: zero offsets, one confident class-3 candidate at
prior 0, centred priors. -/
def tinp : Inputs :=
  ⟨fun _ => 0, fun n => if n = 3 then 9/10 else 0, fun n => (n : ℚ) + 1,
   fun _ => ⟨0, 0, 1/2, 1/2, 1/2, 1/2⟩⟩

/-- The identically-one stand-in for `exp` used by witnesses. -/
def qexp1 : ℚ → ℚ := fun _ => 1

/-- Zero-initialised host buffers for the `postprocess` scenarios. -/
def zeroBufs : Buffers := ⟨fun _ => 0, fun _ => 0, fun _ => 0, fun _ => 0⟩

/-! ## Lemmas: the stable descending sort -/

theorem mem_insertDescBy {key : α → ℚ} {x a : α} {l : List α} :
    a ∈ insertDescBy key x l ↔ a = x ∨ a ∈ l := by
  induction l with
  | nil => simp [insertDescBy]
  | cons y ys ih =>
    by_cases h : key y ≤ key x
    · simp only [insertDescBy, if_pos h, List.mem_cons]
    · simp only [insertDescBy, if_neg h, List.mem_cons, ih]
      tauto

theorem insertDescBy_perm (key : α → ℚ) (x : α) (l : List α) :
    (insertDescBy key x l).Perm (x :: l) := by
  induction l with
  | nil => simp [insertDescBy]
  | cons y ys ih =>
    by_cases h : key y ≤ key x
    · simp [insertDescBy, h]
    · simp only [insertDescBy, if_neg h]
      exact (ih.cons y).trans (List.Perm.swap x y ys)

theorem sortDescBy_perm (key : α → ℚ) (l : List α) :
    (sortDescBy key l).Perm l := by
  induction l with
  | nil => simp [sortDescBy]
  | cons x xs ih =>
    exact ((insertDescBy_perm key x (sortDescBy key xs)).trans (ih.cons x))

theorem mem_sortDescBy {key : α → ℚ} {a : α} {l : List α} :
    a ∈ sortDescBy key l ↔ a ∈ l :=
  (sortDescBy_perm key l).mem_iff

theorem length_sortDescBy (key : α → ℚ) (l : List α) :
    (sortDescBy key l).length = l.length :=
  (sortDescBy_perm key l).length_eq

theorem sorted_insertDescBy {key : α → ℚ} {x : α} {l : List α}
    (hs : List.Sorted (fun a b => key b ≤ key a) l) :
    List.Sorted (fun a b => key b ≤ key a) (insertDescBy key x l) := by
  induction l with
  | nil => simp [insertDescBy]
  | cons y ys ih =>
    by_cases h : key y ≤ key x
    · simp only [insertDescBy, if_pos h]
      refine List.sorted_cons.mpr ⟨?_, hs⟩
      intro b hb
      rcases List.mem_cons.mp hb with rfl | hb
      · exact h
      · exact le_trans (List.rel_of_sorted_cons hs b hb) h
    · simp only [insertDescBy, if_neg h]
      refine List.sorted_cons.mpr ⟨?_, ih hs.of_cons⟩
      intro b hb
      rcases mem_insertDescBy.mp hb with rfl | hb
      · exact le_of_lt (lt_of_not_le h)
      · exact List.rel_of_sorted_cons hs b hb

theorem sorted_sortDescBy (key : α → ℚ) (l : List α) :
    List.Sorted (fun a b => key b ≤ key a) (sortDescBy key l) := by
  induction l with
  | nil => simp [sortDescBy]
  | cons x xs ih => exact sorted_insertDescBy ih

theorem sortDescBy_eq_self {key : α → ℚ} {l : List α}
    (hs : List.Sorted (fun a b => key b ≤ key a) l) :
    sortDescBy key l = l := by
  induction l with
  | nil => rfl
  | cons x xs ih =>
    simp only [sortDescBy, ih hs.of_cons]
    cases xs with
    | nil => rfl
    | cons y ys =>
      simp only [insertDescBy, if_pos (List.rel_of_sorted_cons hs y (by simp))]

theorem filter_insertDescBy {key : α → ℚ} {P : α → Bool}
    (hmono : ∀ a b, key b ≤ key a → P b = true → P a = true)
    {x : α} {l : List α}
    (hs : List.Sorted (fun a b => key b ≤ key a) l) :
    (insertDescBy key x l).filter P =
      if P x then insertDescBy key x (l.filter P) else l.filter P := by
  induction l with
  | nil => by_cases hPx : P x <;> simp [insertDescBy, hPx]
  | cons y ys ih =>
    by_cases h : key y ≤ key x
    · simp only [insertDescBy, if_pos h]
      by_cases hPx : P x
      · by_cases hPy : P y
        · simp [List.filter_cons, hPx, hPy, insertDescBy, h]
        · -- y fails P, hence (sorted) every element of ys fails P
          have hys : ys.filter P = [] := by
            refine List.filter_eq_nil_iff.mpr (fun b hb => ?_)
            intro hPb
            exact absurd (hmono y b (List.rel_of_sorted_cons hs b hb) hPb)
              (by simp [hPy])
          simp [List.filter_cons, hPx, hPy, hys, insertDescBy]
      · by_cases hPy : P y <;> simp [List.filter_cons, hPx, hPy]
    · simp only [insertDescBy, if_neg h]
      by_cases hPx : P x
      · have hPy : P y = true := hmono y x (le_of_lt (lt_of_not_le h)) hPx
        simp only [List.filter_cons, hPy, if_pos hPx, ih hs.of_cons,
          if_pos rfl]
        simp [insertDescBy, h]
      · by_cases hPy : P y <;>
          simp [List.filter_cons, hPx, hPy, ih hs.of_cons]

theorem filter_sortDescBy {key : α → ℚ} {P : α → Bool}
    (hmono : ∀ a b, key b ≤ key a → P b = true → P a = true)
    (l : List α) :
    (sortDescBy key l).filter P = sortDescBy key (l.filter P) := by
  induction l with
  | nil => rfl
  | cons x xs ih =>
    simp only [sortDescBy,
      filter_insertDescBy hmono (sorted_sortDescBy key xs), ih,
      List.filter_cons]
    by_cases hPx : P x <;> simp [hPx, sortDescBy]

theorem filter_eq_takeWhile_of_sorted {key : α → ℚ} {P : α → Bool}
    (hmono : ∀ a b, key b ≤ key a → P b = true → P a = true)
    {l : List α} (hs : List.Sorted (fun a b => key b ≤ key a) l) :
    l.filter P = l.takeWhile P := by
  induction l with
  | nil => rfl
  | cons x xs ih =>
    by_cases hPx : P x
    · simp [List.filter_cons, List.takeWhile_cons, hPx, ih hs.of_cons]
    · have hxs : xs.filter P = [] := by
        refine List.filter_eq_nil_iff.mpr (fun b hb => ?_)
        intro hPb
        exact absurd (hmono x b (List.rel_of_sorted_cons hs b hb) hPb)
          (by simp [hPx])
      simp [List.filter_cons, List.takeWhile_cons, hPx, hxs]

theorem dropWhile_false_of_sorted {key : α → ℚ} {P : α → Bool}
    (hmono : ∀ a b, key b ≤ key a → P b = true → P a = true)
    {l : List α} (hs : List.Sorted (fun a b => key b ≤ key a) l) :
    ∀ x ∈ l.dropWhile P, P x = false := by
  induction l with
  | nil => simp
  | cons y ys ih =>
    by_cases hPy : P y
    · simpa [List.dropWhile_cons, hPy] using ih hs.of_cons
    · simp only [List.dropWhile_cons, hPy, Bool.false_eq_true, if_neg,
        if_false]
      intro x hx
      rcases List.mem_cons.mp hx with rfl | hx
      · simpa using hPy
      · rcases Bool.eq_false_or_eq_true (P x) with h | h
        · exact absurd (hmono y x (List.rel_of_sorted_cons hs x hx) h)
            (by simp [hPy])
        · exact h

theorem take_takeWhile (P : α → Bool) :
    ∀ (l : List α) (n : ℕ), (l.takeWhile P).take n = (l.take n).takeWhile P
  | [], _ => by simp
  | _ :: _, 0 => by simp [List.takeWhile]
  | x :: xs, n + 1 => by
    by_cases hPx : P x <;>
      simp [List.takeWhile, hPx, List.take_succ_cons, take_takeWhile P xs n]

/-! ## Lemmas: the greedy suppression loop -/

theorem nmsLoopFuel_fuel {score : ℕ → ℚ} {box : ℕ → List ℚ}
    {nms conf : ℚ} :
    ∀ (f₁ : ℕ) (l : List ℕ) (f₂ : ℕ), l.length ≤ f₁ → l.length ≤ f₂ →
      nmsLoopFuel score box nms conf f₁ l = nmsLoopFuel score box nms conf f₂ l
  | f₁, [], f₂, _, _ => by cases f₁ <;> cases f₂ <;> rfl
  | 0, i :: rest, _, h₁, _ => by simp at h₁
  | f₁ + 1, i :: rest, 0, _, h₂ => by simp at h₂
  | f₁ + 1, i :: rest, f₂ + 1, h₁, h₂ => by
    simp only [List.length_cons, Nat.add_le_add_iff_right] at h₁ h₂
    rw [nmsLoopFuel, nmsLoopFuel]
    by_cases h : score i < conf
    · rw [if_pos h, if_pos h]
      exact nmsLoopFuel_fuel f₁ rest f₂ h₁ h₂
    · rw [if_neg h, if_neg h]
      congr 1
      exact nmsLoopFuel_fuel f₁ _ f₂
        (le_trans (List.length_filter_le _ _) h₁)
        (le_trans (List.length_filter_le _ _) h₂)

theorem nmsLoop_nil {score : ℕ → ℚ} {box : ℕ → List ℚ} {nms conf : ℚ} :
    nmsLoop score box nms conf [] = [] := rfl

theorem nmsLoop_cons {score : ℕ → ℚ} {box : ℕ → List ℚ} {nms conf : ℚ}
    {i : ℕ} {rest : List ℕ} :
    nmsLoop score box nms conf (i :: rest) =
      if score i < conf then nmsLoop score box nms conf rest
      else i :: nmsLoop score box nms conf
        (rest.filter (fun j => boxIoU (box j) (box i) ≤ nms)) := by
  unfold nmsLoop
  rw [show (i :: rest).length = rest.length + 1 from rfl, nmsLoopFuel]
  by_cases h : score i < conf
  · rw [if_pos h, if_pos h]
  · rw [if_neg h, if_neg h]
    congr 1
    exact nmsLoopFuel_fuel _ _ _ (List.length_filter_le _ _) le_rfl

theorem nmsPureFuel_fuel {box : ℕ → List ℚ} {nms : ℚ} :
    ∀ (f₁ : ℕ) (l : List ℕ) (f₂ : ℕ), l.length ≤ f₁ → l.length ≤ f₂ →
      nmsPureFuel box nms f₁ l = nmsPureFuel box nms f₂ l
  | f₁, [], f₂, _, _ => by cases f₁ <;> cases f₂ <;> rfl
  | 0, i :: rest, _, h₁, _ => by simp at h₁
  | f₁ + 1, i :: rest, 0, _, h₂ => by simp at h₂
  | f₁ + 1, i :: rest, f₂ + 1, h₁, h₂ => by
    simp only [List.length_cons, Nat.add_le_add_iff_right] at h₁ h₂
    rw [nmsPureFuel, nmsPureFuel]
    congr 1
    exact nmsPureFuel_fuel f₁ _ f₂
      (le_trans (List.length_filter_le _ _) h₁)
      (le_trans (List.length_filter_le _ _) h₂)

theorem nmsPure_nil {box : ℕ → List ℚ} {nms : ℚ} :
    nmsPure box nms [] = [] := rfl

theorem nmsPure_cons {box : ℕ → List ℚ} {nms : ℚ} {i : ℕ}
    {rest : List ℕ} :
    nmsPure box nms (i :: rest) =
      i :: nmsPure box nms
        (rest.filter (fun j => boxIoU (box j) (box i) ≤ nms)) := by
  unfold nmsPure
  rw [show (i :: rest).length = rest.length + 1 from rfl, nmsPureFuel]
  congr 1
  exact nmsPureFuel_fuel _ _ _ (List.length_filter_le _ _) le_rfl

theorem nmsPure_sublist (box : ℕ → List ℚ) (nms : ℚ) :
    ∀ l : List ℕ, (nmsPure box nms l).Sublist l
  | [] => by rw [nmsPure_nil]
  | i :: rest => by
    rw [nmsPure_cons]
    exact List.Sublist.cons₂ i
      ((nmsPure_sublist box nms _).trans (List.filter_sublist _))
termination_by l => l.length
decreasing_by
  simp only [List.length_cons]
  exact Nat.lt_succ_of_le (List.length_filter_le _ _)

theorem nmsLoop_sublist (score : ℕ → ℚ) (box : ℕ → List ℚ) (nms conf : ℚ) :
    ∀ l : List ℕ, (nmsLoop score box nms conf l).Sublist l
  | [] => by rw [nmsLoop_nil]
  | i :: rest => by
    rw [nmsLoop_cons]
    by_cases h : score i < conf
    · rw [if_pos h]
      exact (nmsLoop_sublist score box nms conf rest).cons i
    · rw [if_neg h]
      exact List.Sublist.cons₂ i
        ((nmsLoop_sublist score box nms conf _).trans (List.filter_sublist _))
termination_by l => l.length
decreasing_by
  · simp only [List.length_cons]; omega
  · simp only [List.length_cons]
    exact Nat.lt_succ_of_le (List.length_filter_le _ _)

theorem nmsLoop_eq_nmsPure {score : ℕ → ℚ} {box : ℕ → List ℚ}
    {nms conf : ℚ} :
    ∀ l : List ℕ, (∀ i ∈ l, ¬ score i < conf) →
      nmsLoop score box nms conf l = nmsPure box nms l
  | [], _ => by rw [nmsLoop_nil, nmsPure_nil]
  | i :: rest, h => by
    rw [nmsLoop_cons, nmsPure_cons, if_neg (h i (by simp))]
    congr 1
    exact nmsLoop_eq_nmsPure _
      (fun j hj => h j (List.mem_cons_of_mem _ (List.mem_of_mem_filter hj)))
termination_by l => l.length
decreasing_by
  simp only [List.length_cons]
  exact Nat.lt_succ_of_le (List.length_filter_le _ _)

theorem nmsPure_congr {box₁ box₂ : ℕ → List ℚ} {nms : ℚ} :
    ∀ l : List ℕ, (∀ i ∈ l, box₁ i = box₂ i) →
      nmsPure box₁ nms l = nmsPure box₂ nms l
  | [], _ => by rw [nmsPure_nil, nmsPure_nil]
  | i :: rest, h => by
    rw [nmsPure_cons, nmsPure_cons]
    have hb : box₁ i = box₂ i := h i (by simp)
    have hfil : rest.filter (fun j => boxIoU (box₁ j) (box₁ i) ≤ nms) =
        rest.filter (fun j => boxIoU (box₂ j) (box₂ i) ≤ nms) := by
      apply List.filter_congr
      intro j hj
      rw [h j (List.mem_cons_of_mem _ hj), hb]
    rw [hfil]
    congr 1
    exact nmsPure_congr _ (fun j hj =>
      h j (List.mem_cons_of_mem _ (List.mem_of_mem_filter hj)))
termination_by l => l.length
decreasing_by
  simp only [List.length_cons]
  exact Nat.lt_succ_of_le (List.length_filter_le _ _)

theorem nmsPure_append (box : ℕ → List ℚ) (nms : ℚ) :
    ∀ l e : List ℕ, ∃ e', e'.Sublist e ∧
      nmsPure box nms (l ++ e) = nmsPure box nms l ++ nmsPure box nms e'
  | [], e => ⟨e, List.Sublist.refl e, by simp [nmsPure_nil]⟩
  | i :: rest, e => by
    obtain ⟨e', he', heq⟩ := nmsPure_append box nms
      (rest.filter (fun j => boxIoU (box j) (box i) ≤ nms))
      (e.filter (fun j => boxIoU (box j) (box i) ≤ nms))
    refine ⟨e', he'.trans (List.filter_sublist _), ?_⟩
    rw [List.cons_append, nmsPure_cons, List.filter_append, heq,
      nmsPure_cons]
    simp
termination_by l _ => l.length
decreasing_by
  simp only [List.length_cons]
  exact Nat.lt_succ_of_le (List.length_filter_le _ _)

theorem applyNMS_eq_nmsPure {boxes : List (List ℚ)} {scores : List ℚ}
    {nms conf : ℚ}
    (hsort : List.Sorted (fun a b : ℚ => b ≤ a) scores)
    (hconf : ∀ s ∈ scores, ¬ s < conf) :
    applyNMS boxes scores nms conf =
      nmsPure (fun i => boxes.getD i []) nms (List.range scores.length) := by
  unfold applyNMS
  have horder : sortDescBy (fun i => scores.getD i 0)
      (List.range scores.length) = List.range scores.length := by
    apply sortDescBy_eq_self
    have hp : List.Pairwise (· < ·) (List.range scores.length) :=
      List.pairwise_lt_range _
    refine hp.imp_of_mem ?_
    intro a b ha hb hlt
    have ha' := List.mem_range.mp ha
    have hb' := List.mem_range.mp hb
    rw [List.getD_eq_getElem _ _ ha', List.getD_eq_getElem _ _ hb']
    exact (List.pairwise_iff_getElem.mp hsort) a b ha' hb' hlt
  rw [horder]
  apply nmsLoop_eq_nmsPure
  intro i hi
  have hi' := List.mem_range.mp hi
  rw [List.getD_eq_getElem _ _ hi']
  exact hconf _ (List.getElem_mem hi')

/-! ## Lemmas: per-class ranking -/

theorem rank_sorted (cfg : Config) (conf : ℕ → ℚ) (c : ℕ) :
    List.Sorted (fun a b : ℚ × ℕ => b.1 ≤ a.1)
      (get_one_class_max_score_index cfg conf c) := by
  unfold get_one_class_max_score_index
  exact (sorted_sortDescBy _ _).sublist (List.take_sublist _ _)

theorem rank_mem {cfg : Config} {conf : ℕ → ℚ} {c : ℕ} {s : ℚ} {i : ℕ}
    (h : (s, i) ∈ get_one_class_max_score_index cfg conf c) :
    s = conf (i * cfg.numClasses + c) ∧ cfg.confThresh < s ∧
      i < cfg.numPriors := by
  unfold get_one_class_max_score_index at h
  have h1 := mem_sortDescBy.mp (List.take_subset _ _ h)
  obtain ⟨a, ha, hfa⟩ := List.mem_filterMap.mp h1
  simp only at hfa
  by_cases hgt : conf (a * cfg.numClasses + c) > cfg.confThresh
  · rw [if_pos hgt] at hfa
    obtain ⟨hs, hi⟩ := Prod.mk.injEq .. ▸ Option.some.inj hfa
    subst hi
    exact ⟨hs.symm, hs ▸ hgt, List.mem_range.mp ha⟩
  · rw [if_neg hgt] at hfa
    cases hfa

theorem rank_scores_sorted (cfg : Config) (conf : ℕ → ℚ) (c : ℕ) :
    List.Sorted (fun a b : ℚ => b ≤ a)
      ((get_one_class_max_score_index cfg conf c).map (fun p => p.1)) := by
  rw [List.Sorted, List.pairwise_map]
  exact rank_sorted cfg conf c

/-! ## Lemmas: the decode cache -/

theorem lookup_decodeAndCache_decoded {qexp : ℚ → ℚ} {cfg : Config}
    {inp : Inputs} {st : DState} {idx j : ℕ} {b : List ℚ}
    (h : st.decoded.lookup j = some b) :
    (decodeAndCache qexp cfg inp st idx).decoded.lookup j = some b := by
  unfold decodeAndCache
  by_cases h1 : (st.decoded.lookup idx).isNone
  · rw [if_pos h1]
    by_cases h2 : idx < cfg.numPriors
    · rw [if_pos h2]
      have hne : j ≠ idx := by
        rintro rfl
        rw [h] at h1
        simp at h1
      simpa [List.lookup, beq_false_of_ne hne] using h
    · rw [if_neg h2]; exact h
  · rw [if_neg h1]; exact h

theorem lookup_decodeAndCache_masks {qexp : ℚ → ℚ} {cfg : Config}
    {inp : Inputs} {st : DState} {idx j : ℕ} {m : List ℚ}
    (hOK : CacheOK qexp cfg inp st)
    (h : st.masks.lookup j = some m) :
    (decodeAndCache qexp cfg inp st idx).masks.lookup j = some m := by
  unfold decodeAndCache
  by_cases h1 : (st.decoded.lookup idx).isNone
  · rw [if_pos h1]
    by_cases h2 : idx < cfg.numPriors
    · rw [if_pos h2]
      by_cases hne : j = idx
      · -- the fresh entry shadows, but carries the same value
        subst hne
        have := hOK.2.1 j m h
        simp [List.lookup, this]
      · simpa [List.lookup, beq_false_of_ne hne] using h
    · rw [if_neg h2]; exact h
  · rw [if_neg h1]; exact h

theorem cacheOK_decodeAndCache {qexp : ℚ → ℚ} {cfg : Config}
    {inp : Inputs} {st : DState} {idx : ℕ}
    (hOK : CacheOK qexp cfg inp st) :
    CacheOK qexp cfg inp (decodeAndCache qexp cfg inp st idx) := by
  unfold decodeAndCache
  by_cases h1 : (st.decoded.lookup idx).isNone
  · rw [if_pos h1]
    by_cases h2 : idx < cfg.numPriors
    · rw [if_pos h2]
      refine ⟨?_, ?_, ?_⟩
      · intro i b hb
        by_cases hne : i = idx
        · subst hne
          simp only [List.lookup, beq_self_eq_true] at hb
          exact (Option.some.inj hb).symm
        · rw [show (((idx, decode_bbox qexp inp idx) :: st.decoded).lookup i)
              = st.decoded.lookup i by simp [List.lookup, beq_false_of_ne hne]]
            at hb
          exact hOK.1 i b hb
      · intro i m hm
        by_cases hne : i = idx
        · subst hne
          simp only [List.lookup, beq_self_eq_true] at hm
          exact (Option.some.inj hm).symm
        · rw [show (((idx, maskCoefs cfg inp idx) :: st.masks).lookup i)
              = st.masks.lookup i by simp [List.lookup, beq_false_of_ne hne]]
            at hm
          exact hOK.2.1 i m hm
      · intro i hi
        by_cases hne : i = idx
        · subst hne
          simp [List.lookup]
        · simp only [List.lookup, beq_false_of_ne hne] at hi ⊢
          exact hOK.2.2 i hi
    · rw [if_neg h2]; exact hOK
  · rw [if_neg h1]; exact hOK

theorem decodeAndCache_self {qexp : ℚ → ℚ} {cfg : Config} {inp : Inputs}
    {st : DState} {idx : ℕ} (hOK : CacheOK qexp cfg inp st)
    (hidx : idx < cfg.numPriors) :
    (decodeAndCache qexp cfg inp st idx).decoded.lookup idx =
        some (decode_bbox qexp inp idx) ∧
      (decodeAndCache qexp cfg inp st idx).masks.lookup idx =
        some (maskCoefs cfg inp idx) := by
  unfold decodeAndCache
  by_cases h1 : (st.decoded.lookup idx).isNone
  · rw [if_pos h1, if_pos hidx]
    constructor <;> simp [List.lookup]
  · rw [if_neg h1]
    rcases hd : st.decoded.lookup idx with _ | b
    · rw [hd] at h1; simp at h1
    · have hb := hOK.1 idx b hd
      have hms : (st.masks.lookup idx).isSome := hOK.2.2 idx (by simp [hd])
      rcases hm : st.masks.lookup idx with _ | m
      · rw [hm] at hms; simp at hms
      · have := hOK.2.1 idx m hm
        exact ⟨by rw [hb], by rw [this]⟩

theorem foldCache_lookup_decoded {qexp : ℚ → ℚ} {cfg : Config}
    {inp : Inputs} :
    ∀ (vec : List (ℚ × ℕ)) (st : DState) (j : ℕ) (b : List ℚ),
      st.decoded.lookup j = some b →
      (foldCache qexp cfg inp st vec).decoded.lookup j = some b
  | [], _, _, _, h => h
  | p :: ps, st, j, b, h =>
    foldCache_lookup_decoded ps _ j b (lookup_decodeAndCache_decoded h)

theorem foldCache_lookup_masks {qexp : ℚ → ℚ} {cfg : Config}
    {inp : Inputs} :
    ∀ (vec : List (ℚ × ℕ)) (st : DState), CacheOK qexp cfg inp st →
      ∀ (j : ℕ) (m : List ℚ), st.masks.lookup j = some m →
      (foldCache qexp cfg inp st vec).masks.lookup j = some m
  | [], _, _, _, _, h => h
  | p :: ps, st, hOK, j, m, h =>
    foldCache_lookup_masks ps _ (cacheOK_decodeAndCache hOK) j m
      (lookup_decodeAndCache_masks hOK h)

theorem cacheOK_foldCache {qexp : ℚ → ℚ} {cfg : Config} {inp : Inputs} :
    ∀ (vec : List (ℚ × ℕ)) (st : DState), CacheOK qexp cfg inp st →
      CacheOK qexp cfg inp (foldCache qexp cfg inp st vec)
  | [], _, hOK => hOK
  | p :: ps, st, hOK => cacheOK_foldCache ps _ (cacheOK_decodeAndCache hOK)

theorem foldCache_mem_cached {qexp : ℚ → ℚ} {cfg : Config} {inp : Inputs} :
    ∀ (vec : List (ℚ × ℕ)) (st : DState), CacheOK qexp cfg inp st →
      ∀ p ∈ vec, p.2 < cfg.numPriors →
      (foldCache qexp cfg inp st vec).decoded.lookup p.2 =
          some (decode_bbox qexp inp p.2) ∧
        (foldCache qexp cfg inp st vec).masks.lookup p.2 =
          some (maskCoefs cfg inp p.2)
  | [], _, _, _, hp, _ => absurd hp (List.not_mem_nil _)
  | q :: ps, st, hOK, p, hp, hlt => by
    rcases List.mem_cons.mp hp with rfl | hp
    · have hself := decodeAndCache_self hOK hlt
      exact ⟨foldCache_lookup_decoded ps _ _ _ hself.1,
        foldCache_lookup_masks ps _ (cacheOK_decodeAndCache hOK) _ _ hself.2⟩
    · exact foldCache_mem_cached ps _ (cacheOK_decodeAndCache hOK) p hp hlt

/-! ## Lemmas: the per-class characterisation -/

theorem nmsSurvivors_mem {qexp : ℚ → ℚ} {cfg : Config} {inp : Inputs}
    {c i : ℕ} (h : i ∈ nmsSurvivors qexp cfg inp c) :
    ∃ s, (s, i) ∈ get_one_class_max_score_index cfg inp.conf c := by
  unfold nmsSurvivors at h
  simp only at h
  obtain ⟨r, hr, hri⟩ := List.mem_map.mp h
  set vec := get_one_class_max_score_index cfg inp.conf c with hvec
  have hrlt : r < vec.length := by
    have h1 : r ∈ sortDescBy
        (fun i => ((vec.map (fun p => p.1)).getD i 0))
        (List.range (vec.map (fun p => p.1)).length) := by
      have := (nmsLoop_sublist _ _ _ _ _).subset hr
      exact this
    have h2 := mem_sortDescBy.mp h1
    simpa using List.mem_range.mp h2
  have : (vec.map (fun p => p.2)).getD r 0 ∈ vec.map (fun p => p.2) := by
    rw [List.getD_eq_getElem _ _ (by simpa using hrlt)]
    exact List.getElem_mem _
  rw [hri] at this
  obtain ⟨p, hp, hpi⟩ := List.mem_map.mp this
  exact ⟨p.1, by rwa [show (p.1, i) = p by rw [← hpi]]⟩

theorem apply_one_class_eq {qexp : ℚ → ℚ} {cfg : Config} {inp : Inputs}
    {st : DState} {c : ℕ} (hOK : CacheOK qexp cfg inp st) :
    apply_one_class_nms qexp cfg inp st
        (get_one_class_max_score_index cfg inp.conf c) =
      (foldCache qexp cfg inp st
          (get_one_class_max_score_index cfg inp.conf c),
        nmsSurvivors qexp cfg inp c) := by
  unfold apply_one_class_nms nmsSurvivors
  simp only
  have hboxes : (get_one_class_max_score_index cfg inp.conf c).map
      (fun p => ((foldCache qexp cfg inp st
        (get_one_class_max_score_index cfg inp.conf c)).decoded.lookup
          p.2).getD []) =
      (get_one_class_max_score_index cfg inp.conf c).map
        (fun p => decode_bbox qexp inp p.2) := by
    apply List.map_congr_left
    intro p hp
    obtain ⟨s, i⟩ := p
    have hlt : i < cfg.numPriors := (rank_mem hp).2.2
    rw [(foldCache_mem_cached _ st hOK (s, i) hp hlt).1]
    rfl
  rw [hboxes]

theorem runClasses_eq {qexp : ℚ → ℚ} {cfg : Config} {inp : Inputs} :
    ∀ (cs : List ℕ) (st : DState), CacheOK qexp cfg inp st →
      (runClasses qexp cfg inp cs st).2 =
          cs.map (nmsSurvivors qexp cfg inp) ∧
      CacheOK qexp cfg inp (runClasses qexp cfg inp cs st).1 ∧
      (∀ j b, st.decoded.lookup j = some b →
        ((runClasses qexp cfg inp cs st).1).decoded.lookup j = some b) ∧
      (∀ j m, st.masks.lookup j = some m →
        ((runClasses qexp cfg inp cs st).1).masks.lookup j = some m) ∧
      (∀ c ∈ cs, ∀ i ∈ nmsSurvivors qexp cfg inp c,
        ((runClasses qexp cfg inp cs st).1).decoded.lookup i =
            some (decode_bbox qexp inp i) ∧
          ((runClasses qexp cfg inp cs st).1).masks.lookup i =
            some (maskCoefs cfg inp i))
  | [], st, hOK => ⟨rfl, hOK, fun _ _ h => h, fun _ _ h => h, by simp⟩
  | c :: cs, st, hOK => by
    have happ := apply_one_class_eq (c := c) hOK
    have hOK1 : CacheOK qexp cfg inp
        (foldCache qexp cfg inp st
          (get_one_class_max_score_index cfg inp.conf c)) :=
      cacheOK_foldCache _ st hOK
    obtain ⟨h2surv, h2OK, h2dec, h2mask, h2cached⟩ :=
      runClasses_eq cs _ hOK1
    simp only [runClasses, happ]
    refine ⟨by simp [h2surv], h2OK, ?_, ?_, ?_⟩
    · intro j b hb
      exact h2dec j b (foldCache_lookup_decoded _ st j b hb)
    · intro j m hm
      exact h2mask j m (foldCache_lookup_masks _ st hOK j m hm)
    · intro c' hc' i hi
      rcases List.mem_cons.mp hc' with rfl | hc'
      · obtain ⟨s, hsi⟩ := nmsSurvivors_mem hi
        have hlt : i < cfg.numPriors := (rank_mem hsi).2.2
        have hc := foldCache_mem_cached _ st hOK (s, i) hsi hlt
        exact ⟨h2dec _ _ hc.1, h2mask _ _ hc.2⟩
      · exact h2cached c' hc' i hi

theorem cacheOK_empty (qexp : ℚ → ℚ) (cfg : Config) (inp : Inputs) :
    CacheOK qexp cfg inp emptyState := by
  unfold CacheOK
  refine ⟨fun i b h => ?_, fun i m h => ?_, fun i h => ?_⟩ <;>
    simp [emptyState, List.lookup] at h

theorem zip_self_map {β : Type} (l : List α) (f : α → β) :
    l.zip (l.map f) = l.map (fun a => (a, f a)) := by
  induction l with
  | nil => rfl
  | cons x xs ih => simp [ih]

theorem survivorPairs_mem {qexp : ℚ → ℚ} {cfg : Config} {inp : Inputs}
    {p : ℕ × ℕ} (h : p ∈ survivorPairs qexp cfg inp) :
    p.1 ∈ classList cfg ∧ p.2 ∈ nmsSurvivors qexp cfg inp p.1 := by
  unfold survivorPairs at h
  obtain ⟨c, hc, hp⟩ := List.mem_flatMap.mp h
  obtain ⟨i, hi, rfl⟩ := List.mem_map.mp hp
  exact ⟨hc, hi⟩

theorem detectPairs_subset {qexp : ℚ → ℚ} {cfg : Config} {inp : Inputs}
    {p : ℕ × ℕ} (h : p ∈ detectPairs qexp cfg inp) :
    p ∈ survivorPairs qexp cfg inp := by
  rw [detectPairs] at h
  simp only at h
  split at h
  · obtain ⟨c, hcm, hp⟩ := List.mem_flatMap.mp h
    obtain ⟨t, ht, rfl⟩ := List.mem_map.mp hp
    have ht' := List.mem_filter.mp ht
    have htk := mem_sortDescBy.mp (List.take_subset _ _ ht'.1)
    obtain ⟨q, hq, rfl⟩ := List.mem_map.mp htk
    have hqc : q.1 = c := by simpa [tupleOf] using ht'.2
    have : (c, (tupleOf cfg inp q).2.2) = q := by
      obtain ⟨q1, q2⟩ := q
      simp [tupleOf] at hqc ⊢
      exact hqc.symm
    rwa [this]
  · exact h

theorem detect_eq (qexp : ℚ → ℚ) (cfg : Config) (inp : Inputs) :
    detect qexp cfg inp =
      ((detectPairs qexp cfg inp).map (emitPure qexp cfg inp),
       (detectPairs qexp cfg inp).map (fun p => maskCoefs cfg inp p.2)) := by
  obtain ⟨hsurv, hOK, hdec, hmask, hcached⟩ :=
    runClasses_eq (classList cfg) emptyState (cacheOK_empty qexp cfg inp)
  have hstcached : ∀ p ∈ survivorPairs qexp cfg inp,
      ((runClasses qexp cfg inp (classList cfg) emptyState).1).decoded.lookup
          p.2 = some (decode_bbox qexp inp p.2) ∧
        ((runClasses qexp cfg inp (classList cfg) emptyState).1).masks.lookup
          p.2 = some (maskCoefs cfg inp p.2) := by
    intro p hp
    obtain ⟨hc, hi⟩ := survivorPairs_mem hp
    exact hcached p.1 hc p.2 hi
  rw [detect]
  simp only [hsurv, zip_self_map, List.flatMap_map, detectPairs]
  have hsp : (classList cfg).flatMap
      (fun c => (nmsSurvivors qexp cfg inp c).map (fun i => (c, i))) =
      survivorPairs qexp cfg inp := rfl
  have hlen : ((List.map (nmsSurvivors qexp cfg inp)
        (classList cfg)).map List.length).sum =
      (survivorPairs qexp cfg inp).length := by
    rw [← hsp, List.length_flatMap, List.map_map]
    congr 1
    apply List.map_congr_left
    intro c _
    simp
  have htup : (classList cfg).flatMap (fun c =>
        (nmsSurvivors qexp cfg inp c).map
          (fun i => (inp.conf (i * cfg.numClasses + c), c, i))) =
      (survivorPairs qexp cfg inp).map (tupleOf cfg inp) := by
    rw [← hsp, List.map_flatMap]
    simp only [List.map_map]
    rfl
  rw [hlen, htup, hsp]
  have hX : (if 0 < cfg.keepTopK ∧
        cfg.keepTopK < (survivorPairs qexp cfg inp).length then
      (classList cfg).flatMap fun c =>
        List.map (fun t => (c, t.2.2))
          (List.filter (fun t => t.2.1 == c)
            (List.take cfg.keepTopK
              (sortDescBy (fun t => t.1)
                (List.map (tupleOf cfg inp) (survivorPairs qexp cfg inp)))))
    else survivorPairs qexp cfg inp) = detectPairs qexp cfg inp := rfl
  rw [hX]
  simp only [Prod.mk.injEq]
  constructor
  · apply List.map_congr_left
    intro p hp
    have hc := hstcached p (detectPairs_subset hp)
    simp [emitBox, emitPure, hc.1]
  · apply List.map_congr_left
    intro p hp
    have hc := hstcached p (detectPairs_subset hp)
    rw [hc.2]
    rfl

theorem mem_classList {cfg : Config} {c : ℕ} :
    c ∈ classList cfg ↔ 1 ≤ c ∧ c < cfg.numClasses := by
  unfold classList
  cases hn : cfg.numClasses with
  | zero => simp
  | succ m =>
    rw [List.range_succ_eq_map]
    simp only [List.drop_succ_cons, List.drop_zero, List.mem_map,
      List.mem_range]
    constructor
    · rintro ⟨a, ha, rfl⟩
      omega
    · rintro ⟨h1, h2⟩
      exact ⟨c - 1, by omega, by omega⟩

theorem classList_nodup (cfg : Config) : (classList cfg).Nodup :=
  (List.drop_sublist _ _).nodup (List.nodup_range _)

theorem clamp01_nonneg (v : ℚ) : 0 ≤ clamp01 v := le_max_right _ _

theorem clamp01_le_one (v : ℚ) : clamp01 v ≤ 1 :=
  max_le (min_le_right _ _) (by norm_num)

/-! ## The claims -/

/-- **C4**: within one image's `detect` call the box-decoding
transform is computed at most once per prior index: after any classes
`cs₁` have run from the cleared caches, an entry cached for index `i`
is returned unchanged by the state after any further classes `cs₂`
(the cache is never recomputed or overwritten), and every cached entry
equals `decode_bbox` of its index, so decoding index `i` twice yields
identical results. -/
theorem c4_decode_cache_idempotent (qexp : ℚ → ℚ) (cfg : Config)
    (inp : Inputs) (cs₁ cs₂ : List ℕ) :
    (∀ i b,
      ((runClasses qexp cfg inp cs₁ emptyState).1).decoded.lookup i = some b →
      ((runClasses qexp cfg inp cs₂
        (runClasses qexp cfg inp cs₁ emptyState).1).1).decoded.lookup i =
          some b) ∧
    (∀ i b,
      ((runClasses qexp cfg inp cs₂
        (runClasses qexp cfg inp cs₁ emptyState).1).1).decoded.lookup i =
          some b →
      b = decode_bbox qexp inp i) := by
  have h1 := runClasses_eq cs₁ emptyState (cacheOK_empty qexp cfg inp)
  have h2 := runClasses_eq cs₂ _ h1.2.1
  exact ⟨fun i b hb => h2.2.2.1 i b hb, fun i b hb => h2.2.1.1 i b hb⟩

/-- **C7**: `decode_bbox` computes center = prior center +
offset·0.1·prior size and size = prior size·exp(offset·0.2), converts
to min/max corners, clamps each corner into `[0,1]`, and converts back
to center/size; consequently the corners reconstructed from the
decoded center/size box always lie in `[0,1]`. -/
theorem c7_decode_bbox_spec (qexp : ℚ → ℚ) (inp : Inputs) (idx : ℕ) :
    (decode_bbox qexp inp idx =
      [(clamp01 ((inp.priors idx).x + inp.loc (idx * 4) * (1/10) * (inp.priors idx).w
           - ((inp.priors idx).w * qexp (inp.loc (idx * 4 + 2) * (1/5))) / 2)
         + clamp01 ((inp.priors idx).x + inp.loc (idx * 4) * (1/10) * (inp.priors idx).w
           + ((inp.priors idx).w * qexp (inp.loc (idx * 4 + 2) * (1/5))) / 2)) / 2,
       (clamp01 ((inp.priors idx).y + inp.loc (idx * 4 + 1) * (1/10) * (inp.priors idx).h
           - ((inp.priors idx).h * qexp (inp.loc (idx * 4 + 3) * (1/5))) / 2)
         + clamp01 ((inp.priors idx).y + inp.loc (idx * 4 + 1) * (1/10) * (inp.priors idx).h
           + ((inp.priors idx).h * qexp (inp.loc (idx * 4 + 3) * (1/5))) / 2)) / 2,
       clamp01 ((inp.priors idx).x + inp.loc (idx * 4) * (1/10) * (inp.priors idx).w
           + ((inp.priors idx).w * qexp (inp.loc (idx * 4 + 2) * (1/5))) / 2)
         - clamp01 ((inp.priors idx).x + inp.loc (idx * 4) * (1/10) * (inp.priors idx).w
           - ((inp.priors idx).w * qexp (inp.loc (idx * 4 + 2) * (1/5))) / 2),
       clamp01 ((inp.priors idx).y + inp.loc (idx * 4 + 1) * (1/10) * (inp.priors idx).h
           + ((inp.priors idx).h * qexp (inp.loc (idx * 4 + 3) * (1/5))) / 2)
         - clamp01 ((inp.priors idx).y + inp.loc (idx * 4 + 1) * (1/10) * (inp.priors idx).h
           - ((inp.priors idx).h * qexp (inp.loc (idx * 4 + 3) * (1/5))) / 2)]) ∧
    (0 ≤ (decode_bbox qexp inp idx).getD 0 0 - (decode_bbox qexp inp idx).getD 2 0 / 2 ∧
      (decode_bbox qexp inp idx).getD 0 0 - (decode_bbox qexp inp idx).getD 2 0 / 2 ≤ 1) ∧
    (0 ≤ (decode_bbox qexp inp idx).getD 0 0 + (decode_bbox qexp inp idx).getD 2 0 / 2 ∧
      (decode_bbox qexp inp idx).getD 0 0 + (decode_bbox qexp inp idx).getD 2 0 / 2 ≤ 1) ∧
    (0 ≤ (decode_bbox qexp inp idx).getD 1 0 - (decode_bbox qexp inp idx).getD 3 0 / 2 ∧
      (decode_bbox qexp inp idx).getD 1 0 - (decode_bbox qexp inp idx).getD 3 0 / 2 ≤ 1) ∧
    (0 ≤ (decode_bbox qexp inp idx).getD 1 0 + (decode_bbox qexp inp idx).getD 3 0 / 2 ∧
      (decode_bbox qexp inp idx).getD 1 0 + (decode_bbox qexp inp idx).getD 3 0 / 2 ≤ 1) := by
  have center_half : ∀ x0 x1 : ℚ, (1/2 : ℚ) * (x0 + x1) = (x0 + x1) / 2 :=
    fun x0 x1 => by ring
  have center_convert : ∀ x0 x1 : ℚ,
      (x1 - (1/2 : ℚ) * (x0 + x1)) * 2 = x1 - x0 := fun x0 x1 => by ring
  have corner_min : ∀ x0 x1 : ℚ, (x0 + x1) / 2 - (x1 - x0) / 2 = x0 :=
    fun x0 x1 => by ring
  have corner_max : ∀ x0 x1 : ℚ, (x0 + x1) / 2 + (x1 - x0) / 2 = x1 :=
    fun x0 x1 => by ring
  have hb : decode_bbox qexp inp idx =
      [(clamp01 ((inp.priors idx).x + inp.loc (idx * 4) * (1/10) * (inp.priors idx).w
           - ((inp.priors idx).w * qexp (inp.loc (idx * 4 + 2) * (1/5))) / 2)
         + clamp01 ((inp.priors idx).x + inp.loc (idx * 4) * (1/10) * (inp.priors idx).w
           + ((inp.priors idx).w * qexp (inp.loc (idx * 4 + 2) * (1/5))) / 2)) / 2,
       (clamp01 ((inp.priors idx).y + inp.loc (idx * 4 + 1) * (1/10) * (inp.priors idx).h
           - ((inp.priors idx).h * qexp (inp.loc (idx * 4 + 3) * (1/5))) / 2)
         + clamp01 ((inp.priors idx).y + inp.loc (idx * 4 + 1) * (1/10) * (inp.priors idx).h
           + ((inp.priors idx).h * qexp (inp.loc (idx * 4 + 3) * (1/5))) / 2)) / 2,
       clamp01 ((inp.priors idx).x + inp.loc (idx * 4) * (1/10) * (inp.priors idx).w
           + ((inp.priors idx).w * qexp (inp.loc (idx * 4 + 2) * (1/5))) / 2)
         - clamp01 ((inp.priors idx).x + inp.loc (idx * 4) * (1/10) * (inp.priors idx).w
           - ((inp.priors idx).w * qexp (inp.loc (idx * 4 + 2) * (1/5))) / 2),
       clamp01 ((inp.priors idx).y + inp.loc (idx * 4 + 1) * (1/10) * (inp.priors idx).h
           + ((inp.priors idx).h * qexp (inp.loc (idx * 4 + 3) * (1/5))) / 2)
         - clamp01 ((inp.priors idx).y + inp.loc (idx * 4 + 1) * (1/10) * (inp.priors idx).h
           - ((inp.priors idx).h * qexp (inp.loc (idx * 4 + 3) * (1/5))) / 2)] := by
    unfold decode_bbox
    simp only []
    rw [center_convert, center_convert, center_half, center_half]
  refine ⟨hb, ?_, ?_, ?_, ?_⟩ <;>
    rw [hb] <;>
    simp only [List.getD_cons_zero, List.getD_cons_succ] <;>
    constructor
  · rw [corner_min]; exact clamp01_nonneg _
  · rw [corner_min]; exact clamp01_le_one _
  · rw [corner_max]; exact clamp01_nonneg _
  · rw [corner_max]; exact clamp01_le_one _
  · rw [corner_min]; exact clamp01_nonneg _
  · rw [corner_min]; exact clamp01_le_one _
  · rw [corner_max]; exact clamp01_nonneg _
  · rw [corner_max]; exact clamp01_le_one _

/-- **C9**: no detection in the final result list carries the
background class id 0 — `detect` ranks only labels `1 ..
numClasses-1` and emits only those labels. -/
theorem c9_background_never_output (qexp : ℚ → ℚ) (cfg : Config)
    (inp : Inputs) : ∀ d ∈ (detect qexp cfg inp).1, d.label ≠ 0 := by
  intro d hd
  rw [detect_eq] at hd
  obtain ⟨p, hp, rfl⟩ := List.mem_map.mp hd
  have hp1 : p.1 ∈ classList cfg :=
    (survivorPairs_mem (detectPairs_subset hp)).1
  have h1 := (mem_classList.mp hp1).1
  simp only [emitPure]
  omega

/-- **C10**: every emitted detection's score is strictly above the
confidence threshold and equals the confidence-tensor entry at
`prior_index * numClasses + label`, the value that passed the
per-class ranking gate. -/
theorem c10_output_scores_gated (qexp : ℚ → ℚ) (cfg : Config)
    (inp : Inputs) :
    ∀ d ∈ (detect qexp cfg inp).1, cfg.confThresh < d.score ∧
      ∃ i < cfg.numPriors, d.score = inp.conf (i * cfg.numClasses + d.label) := by
  intro d hd
  rw [detect_eq] at hd
  obtain ⟨p, hp, rfl⟩ := List.mem_map.mp hd
  obtain ⟨hc, hi⟩ := survivorPairs_mem (detectPairs_subset hp)
  obtain ⟨s, hs⟩ := nmsSurvivors_mem hi
  obtain ⟨hconf, hgt, hlt⟩ := rank_mem hs
  refine ⟨?_, p.2, hlt, ?_⟩
  · simpa [emitPure, ← hconf] using hgt
  · simp [emitPure]

/-- Witness for C4: after running class 3 on the small fixture, prior 0
is cached; running class 4 afterwards returns the identical entry, and
the entry is the pure decode. -/
theorem c4_decode_cache_idempotent_witness :
    ((runClasses qexp1 tcfg tinp [3] emptyState).1).decoded.lookup 0 =
        some (decode_bbox qexp1 tinp 0) ∧
      ((runClasses qexp1 tcfg tinp [4]
        (runClasses qexp1 tcfg tinp [3] emptyState).1).1).decoded.lookup 0 =
        some (decode_bbox qexp1 tinp 0) :=
  ⟨by with_unfolding_all decide,
    (c4_decode_cache_idempotent qexp1 tcfg tinp [3] [4]).1 0
      (decode_bbox qexp1 tinp 0) (by with_unfolding_all decide)⟩

/-- Witness for C9: the small fixture produces a detection, and its
label is not the background id. -/
theorem c9_background_never_output_witness :
    (⟨3, 9/10, 1/4, 1/4, 1/2, 1/2⟩ : BoxT) ∈ (detect qexp1 tcfg tinp).1 ∧
      (⟨3, 9/10, 1/4, 1/4, 1/2, 1/2⟩ : BoxT).label ≠ 0 :=
  ⟨by with_unfolding_all decide, c9_background_never_output qexp1 tcfg tinp _ (by with_unfolding_all decide)⟩

/-- Witness for C10: the small fixture's detection scores above the
threshold with the gated confidence entry. -/
theorem c10_output_scores_gated_witness :
    (⟨3, 9/10, 1/4, 1/4, 1/2, 1/2⟩ : BoxT) ∈ (detect qexp1 tcfg tinp).1 ∧
      tcfg.confThresh < (⟨3, 9/10, 1/4, 1/4, 1/2, 1/2⟩ : BoxT).score ∧
      ∃ i < tcfg.numPriors, (⟨3, 9/10, 1/4, 1/4, 1/2, 1/2⟩ : BoxT).score =
        tinp.conf (i * tcfg.numClasses +
          (⟨3, 9/10, 1/4, 1/4, 1/2, 1/2⟩ : BoxT).label) :=
  ⟨by with_unfolding_all decide, c10_output_scores_gated qexp1 tcfg tinp _ (by with_unfolding_all decide)⟩

theorem boxIoU_comm (a b : List ℚ) : boxIoU a b = boxIoU b a := by
  unfold boxIoU interLen
  simp only []
  rw [min_comm (a.getD 0 0 + a.getD 2 0 / 2) (b.getD 0 0 + b.getD 2 0 / 2),
    max_comm (a.getD 0 0 - a.getD 2 0 / 2) (b.getD 0 0 - b.getD 2 0 / 2),
    min_comm (a.getD 1 0 + a.getD 3 0 / 2) (b.getD 1 0 + b.getD 3 0 / 2),
    max_comm (a.getD 1 0 - a.getD 3 0 / 2) (b.getD 1 0 - b.getD 3 0 / 2),
    add_comm (a.getD 2 0 * a.getD 3 0) (b.getD 2 0 * b.getD 3 0)]

/-- **C2**: for a two-candidate ranked list of the same class with both
scores above the confidence threshold and decoded boxes whose IoU is
above the suppression threshold, per-class NMS keeps exactly the
higher-scoring candidate. -/
theorem c2_nms_pairwise_suppression (qexp : ℚ → ℚ) (cfg : Config)
    (inp : Inputs) (sa sb : ℚ) (a b : ℕ)
    (ha : a < cfg.numPriors) (hb : b < cfg.numPriors)
    (hgate : cfg.confThresh < sb) (hab : sb < sa)
    (hIoU : cfg.nmsThresh <
      boxIoU (decode_bbox qexp inp a) (decode_bbox qexp inp b)) :
    (apply_one_class_nms qexp cfg inp emptyState [(sa, a), (sb, b)]).2 =
      [a] := by
  unfold apply_one_class_nms
  simp only
  have hOK := cacheOK_empty qexp cfg inp
  have hca : (foldCache qexp cfg inp emptyState
        [(sa, a), (sb, b)]).decoded.lookup a =
      some (decode_bbox qexp inp a) :=
    (foldCache_mem_cached [(sa, a), (sb, b)] emptyState hOK
      (sa, a) (by simp) ha).1
  have hcb : (foldCache qexp cfg inp emptyState
        [(sa, a), (sb, b)]).decoded.lookup b =
      some (decode_bbox qexp inp b) :=
    (foldCache_mem_cached [(sa, a), (sb, b)] emptyState hOK
      (sb, b) (by simp) hb).1
  simp only [List.map_cons, List.map_nil, hca, hcb]
  simp only [Option.getD_some]
  unfold applyNMS
  simp only [List.map_cons, List.map_nil, List.length_cons,
    List.length_nil]
  have horder : sortDescBy (fun i => ([sa, sb].getD i 0)) (List.range (0 + 1 + 1)) =
      [0, 1] := by
    show sortDescBy _ [0, 1] = [0, 1]
    simp only [sortDescBy, insertDescBy]
    rw [if_pos]
    simpa using le_of_lt hab
  have hsa : ¬ (([sa, sb].getD 0 0) < cfg.confThresh) := by
    simpa using not_lt.mpr (le_of_lt (lt_trans hgate hab))
  rw [horder, nmsLoop_cons, if_neg hsa]
  have hfil : List.filter (fun j =>
      boxIoU (([decode_bbox qexp inp a, decode_bbox qexp inp b].getD j []))
        (([decode_bbox qexp inp a, decode_bbox qexp inp b].getD 0 [])) ≤
          cfg.nmsThresh) [1] = [] := by
    rw [List.filter_eq_nil_iff]
    intro j hj
    rw [List.mem_singleton] at hj
    subst hj
    simp only [List.getD_cons_succ, List.getD_cons_zero,
      decide_eq_true_eq]
    rw [boxIoU_comm]
    exact not_le_of_lt hIoU
  rw [hfil, nmsLoop_nil]
  simp

/-- Witness for C2: two confident overlapping candidates at priors 0/1
of the small fixture; only prior 0 (score 9/10) survives. -/
theorem c2_nms_pairwise_suppression_witness :
    (0 < tcfg.numPriors ∧ 1 < tcfg.numPriors ∧
      tcfg.confThresh < (7:ℚ)/10 ∧ (7:ℚ)/10 < 9/10 ∧
      tcfg.nmsThresh <
        boxIoU (decode_bbox qexp1 tinp 0) (decode_bbox qexp1 tinp 1)) ∧
    (apply_one_class_nms qexp1 tcfg tinp emptyState
      [(9/10, 0), (7/10, 1)]).2 = [0] :=
  ⟨by with_unfolding_all decide,
    c2_nms_pairwise_suppression qexp1 tcfg tinp (9/10) (7/10) 0 1
      (by with_unfolding_all decide) (by with_unfolding_all decide)
      (by with_unfolding_all decide) (by with_unfolding_all decide)
      (by with_unfolding_all decide)⟩

theorem sum_bucket_le {β : Type} (key : β → ℕ) :
    ∀ cs : List ℕ, cs.Nodup → ∀ l : List β,
      (cs.map (fun c => (l.filter (fun t => key t == c)).length)).sum ≤
        l.length
  | [], _, l => by simp
  | c :: cs, hnd, l => by
    simp only [List.map_cons, List.sum_cons]
    have hstep : ∀ c' ∈ cs,
        (l.filter (fun t => key t == c')).length =
          ((l.filter (fun t => !(key t == c))).filter
            (fun t => key t == c')).length := by
      intro c' hc'
      have hne : c' ≠ c := by
        rintro rfl
        exact (List.nodup_cons.mp hnd).1 hc'
      congr 1
      rw [List.filter_filter]
      apply List.filter_congr
      intro t _
      by_cases h : key t = c'
      · simp [h, beq_false_of_ne (hne : c' ≠ c)]
      · simp [h]
    have hmap : cs.map (fun c' => (l.filter (fun t => key t == c')).length) =
        cs.map (fun c' => ((l.filter (fun t => !(key t == c))).filter
          (fun t => key t == c')).length) :=
      List.map_congr_left hstep
    rw [hmap]
    have hih := sum_bucket_le key cs (List.nodup_cons.mp hnd).2
      (l.filter (fun t => !(key t == c)))
    have hpart := List.length_eq_length_filter_add
      (l := l) (fun t => key t == c)
    omega

/-- **C3**: the final detection count never exceeds the global cap and
never exceeds the number of per-class NMS survivors, and when the
survivor count is within the cap the output is exactly the per-class
survivors emitted in class-major order — no truncation or reordering
by the global-top-K stage. -/
theorem c3_global_cap (qexp : ℚ → ℚ) (cfg : Config) (inp : Inputs)
    (hK : 0 < cfg.keepTopK) :
    (detect qexp cfg inp).1.length ≤ cfg.keepTopK ∧
    (detect qexp cfg inp).1.length ≤ (survivorPairs qexp cfg inp).length ∧
    ((survivorPairs qexp cfg inp).length ≤ cfg.keepTopK →
      (detect qexp cfg inp).1 =
        (survivorPairs qexp cfg inp).map (emitPure qexp cfg inp)) := by
  rw [detect_eq]
  simp only [List.length_map]
  rw [detectPairs]
  simp only
  by_cases hc : 0 < cfg.keepTopK ∧
      cfg.keepTopK < (survivorPairs qexp cfg inp).length
  · rw [if_pos hc]
    have hlen : ((classList cfg).flatMap (fun c =>
        (((sortDescBy (fun t => t.1)
          ((survivorPairs qexp cfg inp).map (tupleOf cfg inp))).take
            cfg.keepTopK).filter (fun t => t.2.1 == c)).map
          (fun t => (c, t.2.2)))).length ≤ cfg.keepTopK := by
      rw [List.length_flatMap]
      have hm : (classList cfg).map (List.length ∘ (fun c =>
          (((sortDescBy (fun t => t.1)
            ((survivorPairs qexp cfg inp).map (tupleOf cfg inp))).take
              cfg.keepTopK).filter (fun t => t.2.1 == c)).map
            (fun t => (c, t.2.2)))) =
          (classList cfg).map (fun c =>
            (((sortDescBy (fun t => t.1)
              ((survivorPairs qexp cfg inp).map (tupleOf cfg inp))).take
                cfg.keepTopK).filter (fun t => t.2.1 == c)).length) := by
        apply List.map_congr_left
        intro c _
        simp
      rw [hm]
      exact le_trans
        (sum_bucket_le (fun t : ℚ × ℕ × ℕ => t.2.1) (classList cfg)
          (classList_nodup cfg) _)
        (List.length_take_le _ _)
    exact ⟨hlen, le_trans hlen (le_of_lt hc.2),
      fun hle => absurd hc.2 (not_lt.mpr hle)⟩
  · rw [if_neg hc]
    have hle : (survivorPairs qexp cfg inp).length ≤ cfg.keepTopK := by
      rcases not_and_or.mp hc with h | h
      · exact absurd hK h
      · exact not_lt.mp h
    exact ⟨hle, le_refl _, fun _ => rfl⟩

/-- Witness for C3: the small fixture yields one survivor, within the
cap of 15, and the output is exactly that survivor. -/
theorem c3_global_cap_witness :
    0 < tcfg.keepTopK ∧
    (detect qexp1 tcfg tinp).1.length ≤ tcfg.keepTopK ∧
    (detect qexp1 tcfg tinp).1.length ≤
      (survivorPairs qexp1 tcfg tinp).length ∧
    ((survivorPairs qexp1 tcfg tinp).length ≤ tcfg.keepTopK →
      (detect qexp1 tcfg tinp).1 =
        (survivorPairs qexp1 tcfg tinp).map (emitPure qexp1 tcfg tinp)) :=
  ⟨by with_unfolding_all decide,
    c3_global_cap qexp1 tcfg tinp (by with_unfolding_all decide)⟩

/-! ## Lemmas: prior generation -/

theorem foldl_append_eq_flatMap {β : Type} (f : α → List β) :
    ∀ (l : List α) (init : List β),
      l.foldl (fun acc x => acc ++ f x) init = init ++ l.flatMap f
  | [], init => by simp
  | x :: xs, init => by
    simp only [List.foldl_cons, List.flatMap_cons]
    rw [foldl_append_eq_flatMap f xs (init ++ f x), List.append_assoc]

theorem create_priors_eq :
    create_priors = (List.range 5).flatMap priorLevel := by
  unfold create_priors priorLevel
  have h3 : ∀ (k j i : ℕ) (acc : List BoxT),
      (List.range 3).foldl (fun acc r => acc ++ [priorAt k j i r]) acc =
        acc ++ (List.range 3).map (priorAt k j i) := by
    intro k j i acc
    rw [foldl_append_eq_flatMap (fun r => [priorAt k j i r]),
      ← List.map_eq_bind]
  have h2 : ∀ (k j : ℕ) (acc : List BoxT),
      (List.range (fmapDims.getD k 0)).foldl (fun acc i =>
        (List.range 3).foldl (fun acc r => acc ++ [priorAt k j i r]) acc)
          acc =
        acc ++ (List.range (fmapDims.getD k 0)).flatMap (fun i =>
          (List.range 3).map (priorAt k j i)) := by
    intro k j acc
    have hfn : (fun (acc : List BoxT) i =>
        (List.range 3).foldl (fun acc r => acc ++ [priorAt k j i r]) acc) =
        (fun acc i => acc ++ (List.range 3).map (priorAt k j i)) :=
      funext fun acc => funext fun i => h3 k j i acc
    rw [hfn, foldl_append_eq_flatMap]
  have h1 : ∀ (k : ℕ) (acc : List BoxT),
      (List.range (fmapDims.getD k 0)).foldl (fun acc j =>
        (List.range (fmapDims.getD k 0)).foldl (fun acc i =>
          (List.range 3).foldl (fun acc r => acc ++ [priorAt k j i r]) acc)
            acc) acc =
        acc ++ (List.range (fmapDims.getD k 0)).flatMap (fun j =>
          (List.range (fmapDims.getD k 0)).flatMap (fun i =>
            (List.range 3).map (priorAt k j i))) := by
    intro k acc
    have hfn : (fun (acc : List BoxT) j =>
        (List.range (fmapDims.getD k 0)).foldl (fun acc i =>
          (List.range 3).foldl (fun acc r => acc ++ [priorAt k j i r]) acc)
            acc) =
        (fun acc j => acc ++ (List.range (fmapDims.getD k 0)).flatMap
          (fun i => (List.range 3).map (priorAt k j i))) :=
      funext fun acc => funext fun j => h2 k j acc
    rw [hfn, foldl_append_eq_flatMap]
  have h0 : (fun (acc : List BoxT) k =>
      (List.range (fmapDims.getD k 0)).foldl (fun acc j =>
        (List.range (fmapDims.getD k 0)).foldl (fun acc i =>
          (List.range 3).foldl (fun acc r => acc ++ [priorAt k j i r]) acc)
            acc) acc) =
      (fun acc k => acc ++ (List.range (fmapDims.getD k 0)).flatMap
        (fun j => (List.range (fmapDims.getD k 0)).flatMap
          (fun i => (List.range 3).map (priorAt k j i)))) :=
    funext fun acc => funext fun k => h1 k acc
  rw [h0, foldl_append_eq_flatMap]
  exact List.nil_append _

theorem sum_map_const {β : Type} (l : List β) (c : ℕ) :
    (l.map (fun _ => c)).sum = l.length * c := by
  induction l with
  | nil => simp
  | cons x xs ih => simp [ih, Nat.succ_mul, Nat.add_comm]

theorem priorLevel_length (k : ℕ) :
    (priorLevel k).length = fmapDims.getD k 0 * fmapDims.getD k 0 * 3 := by
  unfold priorLevel
  rw [List.length_flatMap]
  have hinner : ∀ j ∈ List.range (fmapDims.getD k 0),
      (List.length ∘ (fun j => (List.range (fmapDims.getD k 0)).flatMap
        (fun i => (List.range 3).map (priorAt k j i)))) j =
        fmapDims.getD k 0 * 3 := by
    intro j _
    simp only [Function.comp_apply]
    rw [List.length_flatMap]
    have : ∀ i ∈ List.range (fmapDims.getD k 0),
        (List.length ∘ (fun i => (List.range 3).map (priorAt k j i))) i = 3 := by
      intro i _
      simp
    rw [List.map_congr_left this, sum_map_const]
    simp
  rw [List.map_congr_left hinner, sum_map_const]
  simp [Nat.mul_assoc]

theorem getD_flatMap_uniform {β : Type} (f : ℕ → List β) (m : ℕ) (d : β) :
    ∀ (l : List ℕ), (∀ x ∈ l, (f x).length = m) →
      ∀ (jx i : ℕ), jx < l.length → i < m →
        (l.flatMap f).getD (jx * m + i) d = (f (l.getD jx 0)).getD i d
  | [], _, jx, i, hj, _ => by simp at hj
  | x :: xs, hm, 0, i, hj, hi => by
    simp only [List.flatMap_cons, Nat.zero_mul, Nat.zero_add]
    rw [List.getD_append _ _ _ _ (by rw [hm x (by simp)]; exact hi)]
    rfl
  | x :: xs, hm, jx + 1, i, hj, hi => by
    simp only [List.flatMap_cons]
    rw [show (jx + 1) * m + i = (f x).length + (jx * m + i) by
      rw [hm x (by simp)]; ring]
    rw [List.getD_append_right _ _ _ _ (Nat.le_add_right _ _)]
    simp only [Nat.add_sub_cancel_left]
    exact getD_flatMap_uniform f m d xs
      (fun y hy => hm y (by simp [hy])) jx i (by simpa using hj) hi

theorem priorLevel_getD (k j i r : ℕ) (hj : j < fmapDims.getD k 0)
    (hi : i < fmapDims.getD k 0) (hr : r < 3) (d : BoxT) :
    (priorLevel k).getD (3 * (j * fmapDims.getD k 0 + i) + r) d =
      priorAt k j i r := by
  unfold priorLevel
  have hlen : ∀ y ∈ List.range (fmapDims.getD k 0),
      ((fun j => (List.range (fmapDims.getD k 0)).flatMap
        (fun i => (List.range 3).map (priorAt k j i))) y).length =
      fmapDims.getD k 0 * 3 := by
    intro y _
    simp only []
    rw [List.length_flatMap]
    have h3 : ∀ i ∈ List.range (fmapDims.getD k 0),
        (List.length ∘ (fun i => (List.range 3).map (priorAt k y i))) i =
          3 := fun i _ => by simp
    rw [List.map_congr_left h3, sum_map_const]
    simp [Nat.mul_comm]
  have step1 := getD_flatMap_uniform
    (fun j => (List.range (fmapDims.getD k 0)).flatMap
      (fun i => (List.range 3).map (priorAt k j i)))
    (fmapDims.getD k 0 * 3) d (List.range (fmapDims.getD k 0)) hlen
    j (i * 3 + r) (by simpa using hj) (by omega)
  have hrangej : (List.range (fmapDims.getD k 0)).getD j 0 = j := by
    rw [List.getD_eq_getElem _ _ (by simpa using hj)]
    exact List.getElem_range _ _
  rw [show 3 * (j * fmapDims.getD k 0 + i) + r =
      j * (fmapDims.getD k 0 * 3) + (i * 3 + r) by ring, step1, hrangej]
  simp only []
  have hlen3 : ∀ y ∈ List.range (fmapDims.getD k 0),
      ((fun i => (List.range 3).map (priorAt k j i)) y).length = 3 :=
    fun y _ => by simp
  have step2 := getD_flatMap_uniform
    (fun i => (List.range 3).map (priorAt k j i)) 3 d
    (List.range (fmapDims.getD k 0)) hlen3 i r (by simpa using hi) hr
  have hrangei : (List.range (fmapDims.getD k 0)).getD i 0 = i := by
    rw [List.getD_eq_getElem _ _ (by simpa using hi)]
    exact List.getElem_range _ _
  rw [step2, hrangei]
  simp only []
  rw [List.getD_eq_getElem _ _
    (by simp [hr] : r < ((List.range 3).map (priorAt k j i)).length)]
  simp [hr]

/-- **C8**: `create_priors` yields exactly `Σ_k F_k² · 3 = 19248`
priors, emitted in level/row/column/ratio order: the prior at flat
index `levelOffset k + 3·(j·F_k + i) + r` has center
`((i+0.5)/F_k, (j+0.5)/F_k)` and square size `S_k·ratio_r / 550`. -/
theorem c8_create_priors_spec :
    create_priors.length = 19248 ∧
    ∀ (k : ℕ), k < 5 → ∀ (j : ℕ), j < fmapDims.getD k 0 →
      ∀ (i : ℕ), i < fmapDims.getD k 0 → ∀ (r : ℕ), r < 3 → ∀ (d : BoxT),
      create_priors.getD
          (levelOffset k + 3 * (j * fmapDims.getD k 0 + i) + r) d =
        { label := 0, score := 0
          x := ((i : ℚ) + 1/2) * (1 / (fmapDims.getD k 0 : ℚ))
          y := ((j : ℚ) + 1/2) * (1 / (fmapDims.getD k 0 : ℚ))
          w := (priorScales.getD k 0 : ℚ) * aspectRatios.getD r 0 / 550
          h := (priorScales.getD k 0 : ℚ) * aspectRatios.getD r 0 / 550 } := by
  constructor
  · rw [create_priors_eq, List.length_flatMap]
    have hm : (List.range 5).map (List.length ∘ priorLevel) =
        (List.range 5).map (fun k =>
          fmapDims.getD k 0 * fmapDims.getD k 0 * 3) :=
      List.map_congr_left (fun k _ => by
        simp [priorLevel_length])
    rw [hm]
    decide
  · intro k hk j hj i hi r hr d
    rw [create_priors_eq,
      show List.range 5 = [0, 1, 2, 3, 4] from rfl]
    simp only [List.flatMap_cons, List.flatMap_nil, List.append_nil]
    have hl0 : (priorLevel 0).length = 14283 := by
      rw [priorLevel_length]; decide
    have hl1 : (priorLevel 1).length = 3675 := by
      rw [priorLevel_length]; decide
    have hl2 : (priorLevel 2).length = 972 := by
      rw [priorLevel_length]; decide
    have hl3 : (priorLevel 3).length = 243 := by
      rw [priorLevel_length]; decide
    interval_cases k
    · have hoff : levelOffset 0 = 0 := by decide
      rw [hoff, Nat.zero_add]
      have hF : fmapDims.getD 0 0 = 69 := rfl
      rw [List.getD_append _ _ _ _ (by
        rw [hl0]; rw [hF] at hj hi ⊢; omega)]
      rw [priorLevel_getD 0 j i r hj hi hr d]
      rfl
    · have hoff : levelOffset 1 = 14283 := by decide
      rw [hoff]
      have hF : fmapDims.getD 1 0 = 35 := rfl
      rw [List.getD_append_right _ _ _ _ (by rw [hl0]; omega), hl0,
        show 14283 + 3 * (j * fmapDims.getD 1 0 + i) + r - 14283 =
          3 * (j * fmapDims.getD 1 0 + i) + r by omega]
      rw [List.getD_append _ _ _ _ (by
        rw [hl1]; rw [hF] at hj hi ⊢; omega)]
      rw [priorLevel_getD 1 j i r hj hi hr d]
      rfl
    · have hoff : levelOffset 2 = 17958 := by decide
      rw [hoff]
      have hF : fmapDims.getD 2 0 = 18 := rfl
      rw [List.getD_append_right _ _ _ _ (by rw [hl0]; omega), hl0,
        show 17958 + 3 * (j * fmapDims.getD 2 0 + i) + r - 14283 =
          3675 + (3 * (j * fmapDims.getD 2 0 + i) + r) by omega]
      rw [List.getD_append_right _ _ _ _ (by rw [hl1]; omega), hl1,
        Nat.add_sub_cancel_left]
      rw [List.getD_append _ _ _ _ (by
        rw [hl2]; rw [hF] at hj hi ⊢; omega)]
      rw [priorLevel_getD 2 j i r hj hi hr d]
      rfl
    · have hoff : levelOffset 3 = 18930 := by decide
      rw [hoff]
      have hF : fmapDims.getD 3 0 = 9 := rfl
      rw [List.getD_append_right _ _ _ _ (by rw [hl0]; omega), hl0,
        show 18930 + 3 * (j * fmapDims.getD 3 0 + i) + r - 14283 =
          3675 + (972 + (3 * (j * fmapDims.getD 3 0 + i) + r)) by omega]
      rw [List.getD_append_right _ _ _ _ (by rw [hl1]; omega), hl1,
        Nat.add_sub_cancel_left]
      rw [List.getD_append_right _ _ _ _ (by rw [hl2]; omega), hl2,
        Nat.add_sub_cancel_left]
      rw [List.getD_append _ _ _ _ (by
        rw [hl3]; rw [hF] at hj hi ⊢; omega)]
      rw [priorLevel_getD 3 j i r hj hi hr d]
      rfl
    · have hoff : levelOffset 4 = 19173 := by decide
      rw [hoff]
      have hF : fmapDims.getD 4 0 = 5 := rfl
      rw [List.getD_append_right _ _ _ _ (by rw [hl0]; omega), hl0,
        show 19173 + 3 * (j * fmapDims.getD 4 0 + i) + r - 14283 =
          3675 + (972 + (243 + (3 * (j * fmapDims.getD 4 0 + i) + r)))
          by omega]
      rw [List.getD_append_right _ _ _ _ (by rw [hl1]; omega), hl1,
        Nat.add_sub_cancel_left]
      rw [List.getD_append_right _ _ _ _ (by rw [hl2]; omega), hl2,
        Nat.add_sub_cancel_left]
      rw [List.getD_append_right _ _ _ _ (by rw [hl3]; omega), hl3,
        Nat.add_sub_cancel_left]
      rw [priorLevel_getD 4 j i r hj hi hr d]
      rfl

/-- Witness for C8: the prior at level 1, row 2, column 3, ratio slot 1
sits at flat index `levelOffset 1 + 3·(2·35+3) + 1` with the stated
geometry. -/
theorem c8_create_priors_spec_witness :
    (1 < 5 ∧ 2 < fmapDims.getD 1 0 ∧ 3 < fmapDims.getD 1 0 ∧ 1 < 3) ∧
    create_priors.getD
        (levelOffset 1 + 3 * (2 * fmapDims.getD 1 0 + 3) + 1)
        ⟨0, 0, 0, 0, 0, 0⟩ =
      { label := 0, score := 0
        x := ((3 : ℚ) + 1/2) * (1 / (fmapDims.getD 1 0 : ℚ))
        y := ((2 : ℚ) + 1/2) * (1 / (fmapDims.getD 1 0 : ℚ))
        w := (priorScales.getD 1 0 : ℚ) * aspectRatios.getD 1 0 / 550
        h := (priorScales.getD 1 0 : ℚ) * aspectRatios.getD 1 0 / 550 } :=
  ⟨by decide,
    c8_create_priors_spec.2 1 (by decide) 2 (by decide) 3 (by decide) 1
      (by decide) ⟨0, 0, 0, 0, 0, 0⟩⟩

/-- **C6 counterexample**: a confidence tensor whose shape `[1, 5, 2]`
is inconsistent with the configured prior/class counts is processed
without any error: `postprocess` performs no shape validation, copies
what the name dictates, runs the full decode and returns an ordinary
(here empty) result instead of aborting. -/
theorem c6_shape_error_counterexample :
    ¬ wellShaped tcfg 1 ⟨"Yolact__Yolact_13749", [1, 5, 2], fun _ => 0⟩ ∧
    (∀ e : String, postprocess tcfg qexp1 zeroBufs tinp.priors
      [⟨"Yolact__Yolact_13749", [1, 5, 2], fun _ => 0⟩] ≠ .error e) ∧
    postprocess tcfg qexp1 zeroBufs tinp.priors
      [⟨"Yolact__Yolact_13749", [1, 5, 2], fun _ => 0⟩] = .ok ([], []) := by
  refine ⟨?_, ?_, ?_⟩
  · intro h
    have h1 : expectedElements tcfg 1 "Yolact__Yolact_13749" =
        some 71415 := by decide
    exact absurd (h 71415 h1) (by decide)
  · intro e he
    unfold postprocess at he
    exact Except.noConfusion he
  · with_unfolding_all rfl

/-- **C6 (amended)**: `postprocess` performs no dimension check at all —
for every input, shape-consistent or not, it copies the recognised
tensors into the host buffers, surfaces no error, and unconditionally
runs the full decode on whatever was copied. -/
theorem c6_postprocess_never_errors (cfg : Config) (qexp : ℚ → ℚ)
    (bufs : Buffers) (priors : ℕ → BoxT) (tensors : List NamedTensor) :
    postprocess cfg qexp bufs priors tensors =
      .ok (detect qexp cfg
        { loc := (tensors.foldl (processTensor cfg) bufs).loc
          conf := (tensors.foldl (processTensor cfg) bufs).conf
          maskData := (tensors.foldl (processTensor cfg) bufs).maskData
          priors := priors }) := rfl

theorem filterMap_range_single {β : Type} (f : ℕ → Option β) :
    ∀ (N p : ℕ) (y : β), p < N → f p = some y →
      (∀ i < N, i ≠ p → f i = none) →
      (List.range N).filterMap f = [y]
  | 0, p, y, hp, _, _ => by omega
  | N + 1, p, y, hp, hfp, hf => by
    rw [List.range_succ, List.filterMap_append]
    by_cases hpN : p = N
    · subst hpN
      have hleft : (List.range p).filterMap f = [] := by
        rw [List.filterMap_eq_nil_iff]
        intro i hi
        have hi' := List.mem_range.mp hi
        exact hf i (by omega) (by omega)
      rw [hleft]
      simp [hfp]
    · have hright : [N].filterMap f = [] := by
        simp only [List.filterMap_cons, List.filterMap_nil]
        rw [hf N (by omega) (fun h => hpN h.symm)]
      rw [hright, List.append_nil]
      exact filterMap_range_single f N p y (by omega) hfp
        (fun i hi hip => hf i (by omega) hip)

theorem flatMap_eq_single {β : Type} (g : ℕ → List β) :
    ∀ (cs : List ℕ) (a : ℕ), cs.Nodup → a ∈ cs →
      (∀ c ∈ cs, c ≠ a → g c = []) → cs.flatMap g = g a
  | [], a, _, ha, _ => absurd ha (List.not_mem_nil a)
  | c :: cs, a, hnd, ha, hz => by
    rw [List.flatMap_cons]
    by_cases hca : c = a
    · subst hca
      have : cs.flatMap g = [] := by
        rw [List.flatMap_eq_nil_iff]
        intro x hx
        refine hz x (by simp [hx]) ?_
        rintro rfl
        exact (List.nodup_cons.mp hnd).1 hx
      rw [this, List.append_nil]
    · have hca' : a ∈ cs := by
        rcases List.mem_cons.mp ha with rfl | h
        · exact absurd rfl hca
        · exact h
      rw [hz c (by simp) hca, List.nil_append]
      exact flatMap_eq_single g cs a (List.nodup_cons.mp hnd).2 hca'
        (fun x hx => hz x (by simp [hx]))

/-- **C1**: with confidence threshold 0.6, NMS IoU threshold 0.2,
pre-NMS cap 200 and global cap 15, when exactly one prior `p` scores
0.9 for class 3 and every other (prior, class) confidence is below
0.6, `detect` outputs exactly one detection with label 3 and score
0.9, its mask-coefficient vector is prior `p`'s, and the synthesized
mask field of that vector is the sigmoid of its dot product with the
prototype tensor at every spatial location. -/
theorem c1_single_candidate_scenario (qexp : ℚ → ℚ) (N C PC HW : ℕ)
    (inp : Inputs) (proto : ℕ → ℚ) (p : ℕ)
    (hp : p < N) (hC : 3 < C)
    (hconf : inp.conf (p * C + 3) = 9/10)
    (hothers : ∀ i < N, ∀ c < C, ¬(i = p ∧ c = 3) →
      inp.conf (i * C + c) < 3/5) :
    ((detect qexp ⟨N, C, PC, 3/5, 1/5, 200, 15⟩ inp).1.map
        (fun d => (d.label, d.score)) = [(3, 9/10)]) ∧
    ((detect qexp ⟨N, C, PC, 3/5, 1/5, 200, 15⟩ inp).2 =
      [maskCoefs ⟨N, C, PC, 3/5, 1/5, 200, 15⟩ inp p]) ∧
    (∀ hh ww, synthMask qexp ⟨N, C, PC, 3/5, 1/5, 200, 15⟩ HW proto
        (((detect qexp ⟨N, C, PC, 3/5, 1/5, 200, 15⟩ inp).2).getD 0 [])
        hh ww =
      sigmoid qexp (maskDot ⟨N, C, PC, 3/5, 1/5, 200, 15⟩ HW proto
        (maskCoefs ⟨N, C, PC, 3/5, 1/5, 200, 15⟩ inp p) hh ww)) := by
  set cfg : Config := ⟨N, C, PC, 3/5, 1/5, 200, 15⟩ with hcfg
  have hrank0 : ∀ c, c < C → c ≠ 3 →
      get_one_class_max_score_index cfg inp.conf c = [] := by
    intro c hcC hc3
    unfold get_one_class_max_score_index
    simp only
    have hnil : (List.range cfg.numPriors).filterMap (fun i =>
        if inp.conf (i * cfg.numClasses + c) > cfg.confThresh then
          some (inp.conf (i * cfg.numClasses + c), i) else none) = [] := by
      rw [List.filterMap_eq_nil_iff]
      intro i hi
      rw [if_neg]
      exact not_lt.mpr (le_of_lt (hothers i (List.mem_range.mp hi) c hcC
        (by simp [hc3])))
    rw [hnil]
    rfl
  have hrank3 : get_one_class_max_score_index cfg inp.conf 3 =
      [(9/10, p)] := by
    unfold get_one_class_max_score_index
    simp only
    have hone : (List.range cfg.numPriors).filterMap (fun i =>
        if inp.conf (i * cfg.numClasses + 3) > cfg.confThresh then
          some (inp.conf (i * cfg.numClasses + 3), i) else none) =
        [(9/10, p)] := by
      apply filterMap_range_single _ _ p
      · exact hp
      · rw [if_pos]
        · rw [hconf]
        · rw [hconf]
          norm_num [hcfg]
      · intro i hi hip
        rw [if_neg]
        exact not_lt.mpr (le_of_lt (hothers i hi 3 hC (by simp [hip])))
    rw [hone]
    rfl
  have hsurv0 : ∀ c, c < C → c ≠ 3 →
      nmsSurvivors qexp cfg inp c = [] := by
    intro c hcC hc3
    unfold nmsSurvivors
    rw [hrank0 c hcC hc3]
    rfl
  have hsurv3 : nmsSurvivors qexp cfg inp 3 = [p] := by
    unfold nmsSurvivors
    rw [hrank3]
    simp only [List.map_cons, List.map_nil]
    unfold applyNMS
    simp only [List.length_cons, List.length_nil, Nat.zero_add]
    rw [show List.range 1 = [0] from rfl,
      show sortDescBy (fun i => ([(9:ℚ)/10].getD i 0)) [0] = [0] from rfl,
      nmsLoop_cons]
    rw [if_neg (by norm_num [hcfg])]
    simp [nmsLoop_nil]
  have hsp : survivorPairs qexp cfg inp = [(3, p)] := by
    unfold survivorPairs
    rw [flatMap_eq_single _ (classList cfg) 3 (classList_nodup cfg)
      (mem_classList.mpr ⟨by omega, by simp [hcfg]; omega⟩) ?_]
    · rw [hsurv3]
      rfl
    · intro c hc hc3
      rw [hsurv0 c (mem_classList.mp hc).2 hc3]
      rfl
  have hdp : detectPairs qexp cfg inp = [(3, p)] := by
    unfold detectPairs
    rw [hsp]
    simp
  rw [detect_eq, hdp]
  refine ⟨?_, ?_, ?_⟩
  · simp only [List.map_cons, List.map_nil, emitPure]
    rw [show ((3 : ℕ), p).2 * cfg.numClasses + ((3 : ℕ), p).1 =
      p * C + 3 from rfl, hconf]
  · rfl
  · intro hh ww
    rfl

/-- Witness for C1: the 1-prior, 5-class fixture with the single
confident class-3 candidate yields exactly one detection (3, 9/10). -/
theorem c1_single_candidate_scenario_witness :
    (0 < 1 ∧ 3 < 5 ∧ tinp.conf (0 * 5 + 3) = 9/10 ∧
      (∀ i < 1, ∀ c < 5, ¬(i = 0 ∧ c = 3) →
        tinp.conf (i * 5 + c) < 3/5)) ∧
    ((detect qexp1 ⟨1, 5, 1, 3/5, 1/5, 200, 15⟩ tinp).1.map
      (fun d => (d.label, d.score)) = [(3, 9/10)]) :=
  ⟨by with_unfolding_all decide,
    (c1_single_candidate_scenario qexp1 1 5 1 1 tinp (fun _ => 0) 0
      (by decide) (by decide) (by with_unfolding_all decide)
      (by with_unfolding_all decide)).1⟩

/-! ## Lemmas: threshold monotonicity -/

theorem filterMap_gate_filter (conf : ℕ → ℚ) (C c : ℕ) (t1 t2 : ℚ)
    (ht : t1 ≤ t2) :
    ∀ l : List ℕ,
      l.filterMap (fun i => if conf (i * C + c) > t2 then
        some (conf (i * C + c), i) else none) =
      (l.filterMap (fun i => if conf (i * C + c) > t1 then
        some (conf (i * C + c), i) else none)).filter
        (fun q => t2 < q.1)
  | [] => rfl
  | i :: l => by
    simp only [List.filterMap_cons]
    by_cases h2 : t2 < conf (i * C + c)
    · have h1 : t1 < conf (i * C + c) := lt_of_le_of_lt ht h2
      rw [if_pos h2, if_pos h1]
      simp only [List.filter_cons, decide_eq_true_eq, h2, if_pos]
      rw [filterMap_gate_filter conf C c t1 t2 ht l]
    · by_cases h1 : t1 < conf (i * C + c)
      · rw [if_neg h2, if_pos h1]
        simp only [List.filter_cons, decide_eq_true_eq]
        rw [if_neg (by simpa using h2)]
        exact filterMap_gate_filter conf C c t1 t2 ht l
      · rw [if_neg h2, if_neg h1]
        exact filterMap_gate_filter conf C c t1 t2 ht l

theorem score_filter_mono (t2 : ℚ) :
    ∀ (a b : ℚ × ℕ), b.1 ≤ a.1 →
      (decide (t2 < b.1)) = true → (decide (t2 < a.1)) = true := by
  intro a b hab hb
  simp only [decide_eq_true_eq] at hb ⊢
  exact lt_of_lt_of_le hb hab

theorem rank_mono (cfg : Config) (conf : ℕ → ℚ) (c : ℕ) (t1 t2 : ℚ)
    (ht : t1 ≤ t2) :
    get_one_class_max_score_index {cfg with confThresh := t2} conf c =
      (get_one_class_max_score_index {cfg with confThresh := t1} conf
        c).takeWhile (fun q => t2 < q.1) := by
  unfold get_one_class_max_score_index
  simp only
  rw [filterMap_gate_filter conf cfg.numClasses c t1 t2 ht]
  rw [← filter_sortDescBy (score_filter_mono t2)]
  rw [filter_eq_takeWhile_of_sorted (score_filter_mono t2)
    (sorted_sortDescBy _ _)]
  rw [take_takeWhile]

theorem mem_drop_range {n m x : ℕ} (h : x ∈ (List.range n).drop m) :
    m ≤ x ∧ x < n := by
  obtain ⟨i, hi, hx⟩ := List.mem_iff_getElem.mp h
  have hlen : ((List.range n).drop m).length = n - m := by simp
  rw [List.getElem_drop] at hx
  rw [List.getElem_range] at hx
  omega

theorem filter_flatMap {β γ : Type} (g : β → List γ) (P : γ → Bool) :
    ∀ l : List β,
      (l.flatMap g).filter P = l.flatMap (fun x => (g x).filter P)
  | [] => rfl
  | x :: l => by
    simp only [List.flatMap_cons, List.filter_append]
    rw [filter_flatMap g P l]

theorem rank_mem' {cfg : Config} {conf : ℕ → ℚ} {c : ℕ} {q : ℚ × ℕ}
    (h : q ∈ get_one_class_max_score_index cfg conf c) :
    q.1 = conf (q.2 * cfg.numClasses + c) ∧ cfg.confThresh < q.1 ∧
      q.2 < cfg.numPriors := by
  obtain ⟨s, i⟩ := q
  exact rank_mem h

theorem nmsSurvivors_mono (qexp : ℚ → ℚ) (cfg : Config) (inp : Inputs)
    (c : ℕ) (t1 t2 : ℚ) (ht : t1 ≤ t2) :
    ∃ extra : List ℕ,
      nmsSurvivors qexp {cfg with confThresh := t1} inp c =
        nmsSurvivors qexp {cfg with confThresh := t2} inp c ++ extra ∧
      (∀ i ∈ extra, inp.conf (i * cfg.numClasses + c) ≤ t2) ∧
      (∀ i ∈ nmsSurvivors qexp {cfg with confThresh := t2} inp c,
        t2 < inp.conf (i * cfg.numClasses + c)) := by
  have hvec2 : get_one_class_max_score_index {cfg with confThresh := t2}
      inp.conf c =
      (get_one_class_max_score_index {cfg with confThresh := t1}
        inp.conf c).takeWhile (fun q => t2 < q.1) :=
    rank_mono cfg inp.conf c t1 t2 ht
  set vec1 := get_one_class_max_score_index {cfg with confThresh := t1}
    inp.conf c with hv1
  set vec2 := get_one_class_max_score_index {cfg with confThresh := t2}
    inp.conf c with hv2
  set ext := vec1.dropWhile (fun q => t2 < q.1) with hext
  have hsplit : vec1 = vec2 ++ ext := by
    rw [hvec2, hext, List.takeWhile_append_dropWhile]
  have hn2le : vec2.length ≤ vec1.length := by
    rw [hsplit]
    simp
  -- score facts
  have hvec2P : ∀ q ∈ vec2, t2 < q.1 := by
    intro q hq
    have := List.mem_takeWhile_imp (hvec2 ▸ hq)
    simpa using this
  have hextP : ∀ q ∈ ext, ¬ t2 < q.1 := by
    intro q hq
    have := dropWhile_false_of_sorted (score_filter_mono t2)
      (rank_sorted {cfg with confThresh := t1} inp.conf c) q hq
    simpa using this
  -- pure characterisations of both runs
  have h1 : nmsSurvivors qexp {cfg with confThresh := t1} inp c =
      (nmsPure (fun i =>
          (vec1.map (fun p => decode_bbox qexp inp p.2)).getD i [])
        cfg.nmsThresh (List.range vec1.length)).map
        (fun r => (vec1.map (fun p => p.2)).getD r 0) := by
    show (applyNMS (vec1.map (fun p => decode_bbox qexp inp p.2))
        (vec1.map (fun p => p.1)) cfg.nmsThresh t1).map
        (fun r => (vec1.map (fun p => p.2)).getD r 0) = _
    rw [applyNMS_eq_nmsPure (rank_scores_sorted _ inp.conf c) ?_]
    · rw [List.length_map]
    · intro s hs
      obtain ⟨q, hq, rfl⟩ := List.mem_map.mp hs
      exact not_lt.mpr (le_of_lt (rank_mem' hq).2.1)
  have h2 : nmsSurvivors qexp {cfg with confThresh := t2} inp c =
      (nmsPure (fun i =>
          (vec2.map (fun p => decode_bbox qexp inp p.2)).getD i [])
        cfg.nmsThresh (List.range vec2.length)).map
        (fun r => (vec2.map (fun p => p.2)).getD r 0) := by
    show (applyNMS (vec2.map (fun p => decode_bbox qexp inp p.2))
        (vec2.map (fun p => p.1)) cfg.nmsThresh t2).map
        (fun r => (vec2.map (fun p => p.2)).getD r 0) = _
    rw [applyNMS_eq_nmsPure (rank_scores_sorted _ inp.conf c) ?_]
    · rw [List.length_map]
    · intro s hs
      obtain ⟨q, hq, rfl⟩ := List.mem_map.mp hs
      exact not_lt.mpr (le_of_lt (rank_mem' hq).2.1)
  -- split the position range
  have hrange : List.range vec1.length =
      List.range vec2.length ++ (List.range vec1.length).drop
        vec2.length := by
    conv_lhs => rw [← List.take_append_drop vec2.length
      (List.range vec1.length)]
    rw [List.take_range, Nat.min_eq_left hn2le]
  obtain ⟨e', he', heq⟩ := nmsPure_append
    (fun i => (vec1.map (fun p => decode_bbox qexp inp p.2)).getD i [])
    cfg.nmsThresh (List.range vec2.length)
    ((List.range vec1.length).drop vec2.length)
  have hbox : ∀ i ∈ List.range vec2.length,
      (fun i => (vec1.map (fun p => decode_bbox qexp inp p.2)).getD i []) i =
      (fun i => (vec2.map (fun p => decode_bbox qexp inp p.2)).getD i []) i := by
    intro i hi
    have hi' := List.mem_range.mp hi
    simp only []
    conv_lhs => rw [hsplit]
    rw [List.map_append,
      List.getD_append _ _ _ _ (by simpa using hi')]
  have hcong := @nmsPure_congr _ _ cfg.nmsThresh
    (List.range vec2.length) hbox
  refine ⟨(nmsPure (fun i =>
      (vec1.map (fun p => decode_bbox qexp inp p.2)).getD i [])
      cfg.nmsThresh e').map (fun r => (vec1.map (fun p => p.2)).getD r 0),
    ?_, ?_, ?_⟩
  · rw [h1, h2, hrange, heq, List.map_append]
    congr 1
    rw [hcong]
    apply List.map_congr_left
    intro r hr
    have hr' : r < vec2.length := by
      have := (nmsPure_sublist _ _ _).subset hr
      simpa using List.mem_range.mp this
    conv_lhs => rw [hsplit]
    rw [List.map_append, List.getD_append _ _ _ _ (by simpa using hr')]
  · intro i hi
    obtain ⟨r, hr, rfl⟩ := List.mem_map.mp hi
    have hre : r ∈ (List.range vec1.length).drop vec2.length :=
      he'.subset ((nmsPure_sublist _ _ _).subset hr)
    obtain ⟨hrge, hrlt⟩ := mem_drop_range hre
    rw [List.getD_eq_getElem _ _ (by simpa using hrlt),
      List.getElem_map]
    have hmem : vec1[r] ∈ vec1 := List.getElem_mem hrlt
    have hscore := (rank_mem' hmem).1
    have hget := List.getElem_of_eq hsplit hrlt
    rw [List.getElem_append_right (by simpa using hrge)] at hget
    have hinext : vec1[r] ∈ ext := by
      rw [hget]
      exact List.getElem_mem _
    have hle := hextP _ hinext
    rw [← hscore]
    exact not_lt.mp hle
  · intro i hi
    obtain ⟨s, hs⟩ := nmsSurvivors_mem hi
    have h := hvec2P _ hs
    have := (rank_mem hs).1
    simpa [← this] using h

theorem flatMap_congr' {β γ : Type} (f g : β → List γ) :
    ∀ l : List β, (∀ x ∈ l, f x = g x) → l.flatMap f = l.flatMap g
  | [], _ => rfl
  | x :: l, h => by
    simp only [List.flatMap_cons]
    rw [h x (by simp), flatMap_congr' f g l (fun y hy => h y (by simp [hy]))]

theorem tupleOf_inj (cfg : Config) (inp : Inputs) {p q : ℕ × ℕ}
    (h : tupleOf cfg inp p = tupleOf cfg inp q) : p = q := by
  obtain ⟨p1, p2⟩ := p
  obtain ⟨q1, q2⟩ := q
  simp only [tupleOf, Prod.mk.injEq] at h
  exact Prod.ext h.2.1 h.2.2

theorem tuples_mono (qexp : ℚ → ℚ) (cfg : Config) (inp : Inputs)
    (t1 t2 : ℚ) (ht : t1 ≤ t2) :
    (survivorPairs qexp {cfg with confThresh := t2} inp).map
        (tupleOf cfg inp) =
      ((survivorPairs qexp {cfg with confThresh := t1} inp).map
        (tupleOf cfg inp)).filter (fun q => t2 < q.1) := by
  show ((classList cfg).flatMap (fun c =>
      (nmsSurvivors qexp {cfg with confThresh := t2} inp c).map
        (fun i => (c, i)))).map (tupleOf cfg inp) =
    (((classList cfg).flatMap (fun c =>
      (nmsSurvivors qexp {cfg with confThresh := t1} inp c).map
        (fun i => (c, i)))).map (tupleOf cfg inp)).filter
      (fun q => t2 < q.1)
  rw [List.map_flatMap, List.map_flatMap, filter_flatMap]
  apply flatMap_congr'
  intro c _
  obtain ⟨extra, hsplit, hextra, hs2⟩ :=
    nmsSurvivors_mono qexp cfg inp c t1 t2 ht
  rw [List.map_map, List.map_map, hsplit, List.map_append,
    List.filter_append]
  have hkeep : ((nmsSurvivors qexp {cfg with confThresh := t2} inp c).map
      (tupleOf cfg inp ∘ fun i => (c, i))).filter
        (fun q => t2 < q.1) =
      (nmsSurvivors qexp {cfg with confThresh := t2} inp c).map
        (tupleOf cfg inp ∘ fun i => (c, i)) := by
    apply List.filter_eq_self.mpr
    intro x hx
    obtain ⟨i, hi, rfl⟩ := List.mem_map.mp hx
    simpa [tupleOf] using hs2 i hi
  have hdrop : (extra.map (tupleOf cfg inp ∘ fun i => (c, i))).filter
      (fun q => t2 < q.1) = [] := by
    apply List.filter_eq_nil_iff.mpr
    intro x hx
    obtain ⟨i, hi, rfl⟩ := List.mem_map.mp hx
    simpa [tupleOf] using not_lt.mpr (hextra i hi)
  rw [hkeep, hdrop, List.append_nil]

theorem survivorPairs_mono_subset (qexp : ℚ → ℚ) (cfg : Config)
    (inp : Inputs) (t1 t2 : ℚ) (ht : t1 ≤ t2) {p : ℕ × ℕ}
    (hp : p ∈ survivorPairs qexp {cfg with confThresh := t2} inp) :
    p ∈ survivorPairs qexp {cfg with confThresh := t1} inp := by
  have h1 : tupleOf cfg inp p ∈
      (survivorPairs qexp {cfg with confThresh := t2} inp).map
        (tupleOf cfg inp) := List.mem_map_of_mem _ hp
  rw [tuples_mono qexp cfg inp t1 t2 ht] at h1
  have h2 := List.mem_of_mem_filter h1
  obtain ⟨q, hq, hqe⟩ := List.mem_map.mp h2
  rwa [tupleOf_inj cfg inp hqe] at hq

theorem score_filter_mono3 (t2 : ℚ) :
    ∀ (a b : ℚ × ℕ × ℕ), b.1 ≤ a.1 →
      (decide (t2 < b.1)) = true → (decide (t2 < a.1)) = true := by
  intro a b hab hb
  simp only [decide_eq_true_eq] at hb ⊢
  exact lt_of_lt_of_le hb hab

theorem detectPairs_update (qexp : ℚ → ℚ) (cfg : Config) (inp : Inputs)
    (t : ℚ) :
    detectPairs qexp {cfg with confThresh := t} inp =
      if 0 < cfg.keepTopK ∧ cfg.keepTopK <
          (survivorPairs qexp {cfg with confThresh := t} inp).length then
        (classList cfg).flatMap (fun c =>
          (((sortDescBy (fun q => q.1)
            ((survivorPairs qexp {cfg with confThresh := t} inp).map
              (tupleOf cfg inp))).take cfg.keepTopK).filter
            (fun q => q.2.1 == c)).map (fun q => (c, q.2.2)))
      else survivorPairs qexp {cfg with confThresh := t} inp := rfl

theorem detectPairs_mono (qexp : ℚ → ℚ) (cfg : Config) (inp : Inputs)
    (t1 t2 : ℚ) (ht : t1 ≤ t2) {p : ℕ × ℕ}
    (hp : p ∈ detectPairs qexp {cfg with confThresh := t2} inp) :
    p ∈ detectPairs qexp {cfg with confThresh := t1} inp := by
  rw [detectPairs_update] at hp ⊢
  have htup := tuples_mono qexp cfg inp t1 t2 ht
  have hn : (survivorPairs qexp {cfg with confThresh := t2} inp).length ≤
      (survivorPairs qexp {cfg with confThresh := t1} inp).length := by
    have h := congrArg List.length htup
    simp only [List.length_map] at h
    rw [h]
    exact le_trans (List.length_filter_le _ _) (le_of_eq (List.length_map _ _))
  have hsorted : sortDescBy (fun q => q.1)
      ((survivorPairs qexp {cfg with confThresh := t2} inp).map
        (tupleOf cfg inp)) =
      (sortDescBy (fun q => q.1)
        ((survivorPairs qexp {cfg with confThresh := t1} inp).map
          (tupleOf cfg inp))).takeWhile (fun q => t2 < q.1) := by
    rw [htup, ← filter_sortDescBy (score_filter_mono3 t2),
      filter_eq_takeWhile_of_sorted (score_filter_mono3 t2)
        (sorted_sortDescBy _ _)]
  have hslen : ((sortDescBy (fun q => q.1)
      ((survivorPairs qexp {cfg with confThresh := t1} inp).map
        (tupleOf cfg inp))).takeWhile (fun q => t2 < q.1)).length =
      (survivorPairs qexp {cfg with confThresh := t2} inp).length := by
    rw [← hsorted, length_sortDescBy, List.length_map]
  by_cases h1 : 0 < cfg.keepTopK ∧ cfg.keepTopK <
      (survivorPairs qexp {cfg with confThresh := t1} inp).length
  · rw [if_pos h1]
    by_cases h2 : 0 < cfg.keepTopK ∧ cfg.keepTopK <
        (survivorPairs qexp {cfg with confThresh := t2} inp).length
    · rw [if_pos h2] at hp
      have hkept : (sortDescBy (fun q => q.1)
          ((survivorPairs qexp {cfg with confThresh := t1} inp).map
            (tupleOf cfg inp))).take cfg.keepTopK =
          (sortDescBy (fun q => q.1)
            ((survivorPairs qexp {cfg with confThresh := t2} inp).map
              (tupleOf cfg inp))).take cfg.keepTopK := by
        rw [hsorted]
        conv_lhs => rw [← List.takeWhile_append_dropWhile
          (p := fun q => decide (t2 < q.1))
          (l := sortDescBy (fun q => q.1)
            ((survivorPairs qexp {cfg with confThresh := t1} inp).map
              (tupleOf cfg inp)))]
        rw [List.take_append_eq_append_take]
        rw [Nat.sub_eq_zero_of_le (by rw [hslen]; exact le_of_lt h2.2),
          List.take_zero, List.append_nil]
      rw [hkept]
      exact hp
    · rw [if_neg h2] at hp
      have hn2K : (survivorPairs qexp
          {cfg with confThresh := t2} inp).length ≤ cfg.keepTopK := by
        rcases not_and_or.mp h2 with h | h
        · exact absurd h1.1 h
        · exact not_lt.mp h
      have htmem : tupleOf cfg inp p ∈ (sortDescBy (fun q => q.1)
          ((survivorPairs qexp {cfg with confThresh := t1} inp).map
            (tupleOf cfg inp))).take cfg.keepTopK := by
        have h1m : tupleOf cfg inp p ∈ sortDescBy (fun q => q.1)
            ((survivorPairs qexp {cfg with confThresh := t2} inp).map
              (tupleOf cfg inp)) :=
          mem_sortDescBy.mpr (List.mem_map_of_mem _ hp)
        rw [hsorted] at h1m
        conv => rw [← List.takeWhile_append_dropWhile
          (p := fun q => decide (t2 < q.1))
          (l := sortDescBy (fun q => q.1)
            ((survivorPairs qexp {cfg with confThresh := t1} inp).map
              (tupleOf cfg inp)))]
        rw [List.take_append_eq_append_take,
          List.take_of_length_le (by rw [hslen]; exact hn2K)]
        exact List.mem_append_left _ h1m
      refine List.mem_flatMap.mpr ⟨p.1, ?_, ?_⟩
      · exact (survivorPairs_mem hp).1
      · refine List.mem_map.mpr ⟨tupleOf cfg inp p, ?_, ?_⟩
        · exact List.mem_filter.mpr ⟨htmem, by simp [tupleOf]⟩
        · show (p.1, p.2) = p
          rfl
  · rw [if_neg h1]
    by_cases h2 : 0 < cfg.keepTopK ∧ cfg.keepTopK <
        (survivorPairs qexp {cfg with confThresh := t2} inp).length
    · exact absurd ⟨h2.1, lt_of_lt_of_le h2.2 hn⟩ h1
    · rw [if_neg h2] at hp
      exact survivorPairs_mono_subset qexp cfg inp t1 t2 ht hp

/-- **C5**: for fixed tensors and fixed other parameters, raising the
confidence threshold from `t1` to `t2` can only remove detections from
the final output — every detection emitted at the higher threshold is
also emitted at the lower one. -/
theorem c5_threshold_monotone (qexp : ℚ → ℚ) (cfg : Config)
    (inp : Inputs) (t1 t2 : ℚ) (ht : t1 ≤ t2) :
    ∀ d ∈ (detect qexp {cfg with confThresh := t2} inp).1,
      d ∈ (detect qexp {cfg with confThresh := t1} inp).1 := by
  intro d hd
  rw [detect_eq] at hd ⊢
  obtain ⟨p, hp, rfl⟩ := List.mem_map.mp hd
  have hemit : emitPure qexp {cfg with confThresh := t2} inp p =
      emitPure qexp {cfg with confThresh := t1} inp p := rfl
  rw [hemit]
  exact List.mem_map_of_mem _ (detectPairs_mono qexp cfg inp t1 t2 ht hp)

/-- Witness for C5: on the small fixture the detection present at
threshold 0.6 is also present at threshold 0.5. -/
theorem c5_threshold_monotone_witness :
    ((1 : ℚ)/2 ≤ 3/5 ∧
      (⟨3, 9/10, 1/4, 1/4, 1/2, 1/2⟩ : BoxT) ∈
        (detect qexp1 {tcfg with confThresh := 3/5} tinp).1) ∧
    (⟨3, 9/10, 1/4, 1/4, 1/2, 1/2⟩ : BoxT) ∈
      (detect qexp1 {tcfg with confThresh := 1/2} tinp).1 :=
  ⟨⟨by with_unfolding_all decide, by with_unfolding_all decide⟩,
    c5_threshold_monotone qexp1 tcfg tinp (1/2) (3/5)
      (by with_unfolding_all decide) _ (by with_unfolding_all decide)⟩

end Yolact
